import Mathlib

/-!
Verification of the graph-analytics core of the Networking-RCA-GraphRAG-RecSys
repository: shallow Lean embeddings of the clustering/summarization components
(`Fingerprinter`, `BridgeIdentifier`, `DriftDetector`, `Projector`,
`LeidenEngineHierarchical`, `TopologyFilter`) and proofs of the spec's claims
about them.

Conventions: JSON dictionaries become association lists in insertion order
(Python 3.7+ dicts preserve insertion order); Python `defaultdict(list)`
grouping becomes `addToGroup`; Python's stable `sort`/`sorted` becomes
`List.insertionSort` with the corresponding "comes no later than" relation
(both are stable, so they agree element-by-element); floating point numbers
whose exact value matters only through field arithmetic become `ℚ`, and the
Projector's embedding vectors (which go through square roots) become `ℝ`.
External library calls (SHA-256, the Leiden partitioner, igraph PageRank) are
abstracted as function parameters: every claim proved here holds for every
behaviour of those externals.
-/

namespace NetRCA

/-- A community assignment entry: the value of one node in the flattened
`community_map.json`, `{"macro_community": m, "micro_community": u}`. -/
structure CommEntry where
  macro_community : Int
  micro_community : Int
deriving DecidableEq, Repr

/-- First-match lookup in an association list, the model of Python
`dict.get` (dict keys are unique, so first match is the match). -/
def alookup {κ α : Type} [DecidableEq κ] (l : List (κ × α)) (k : κ) : Option α :=
  (l.find? (fun p => p.1 = k)).map (fun p => p.2)

/-- `defaultdict(list)` grouping step: append `v` to the group of key `k`,
creating the group at the end on first sight (Python dict insertion order). -/
def addToGroup {κ α : Type} [DecidableEq κ] (groups : List (κ × List α)) (k : κ) (v : α) :
    List (κ × List α) :=
  match groups with
  | [] => [(k, [v])]
  | g :: rest => if g.1 = k then (g.1, g.2 ++ [v]) :: rest else g :: addToGroup rest k v

theorem alookup_nil {κ α : Type} [DecidableEq κ] (k : κ) :
    alookup ([] : List (κ × α)) k = none := rfl

theorem alookup_cons {κ α : Type} [DecidableEq κ] (p : κ × α) (l : List (κ × α)) (k : κ) :
    alookup (p :: l) k = if p.1 = k then some p.2 else alookup l k := by
  by_cases h : p.1 = k <;> simp [alookup, List.find?, h]

/-- Looking up in a value-mapped association list. -/
theorem alookup_map {κ α β : Type} [DecidableEq κ] (f : α → β) (l : List (κ × α)) (k : κ) :
    alookup (l.map (fun p => (p.1, f p.2))) k = (alookup l k).map f := by
  induction l with
  | nil => rfl
  | cons p rest ih =>
      by_cases h : p.1 = k <;> simp [alookup_cons, h, ih]

theorem alookup_addToGroup {κ α : Type} [DecidableEq κ]
    (groups : List (κ × List α)) (k : κ) (v : α) (k' : κ) :
    alookup (addToGroup groups k v) k' =
      if k' = k then some ((alookup groups k).getD [] ++ [v]) else alookup groups k' := by
  induction groups with
  | nil =>
      by_cases h : k' = k
      · subst h; simp [addToGroup, alookup_cons, alookup_nil]
      · simp [addToGroup, alookup_cons, alookup_nil, h, Ne.symm h]
  | cons g rest ih =>
      by_cases hg : g.1 = k
      · by_cases h : k' = k
        · subst h
          simp [addToGroup, hg, alookup_cons]
        · have hg' : ¬ g.1 = k' := fun hh => h ((hg.symm.trans hh).symm)
          simp [addToGroup, hg, alookup_cons, hg', h, Ne.symm h]
      · by_cases hgk : g.1 = k'
        · have h : ¬ k' = k := fun hh => hg (hgk.trans hh)
          simp [addToGroup, hg, alookup_cons, hgk, h]
        · simp [addToGroup, hg, alookup_cons, hgk, ih]

/-! ## `Fingerprinter.py` (`CommunityFingerprinter`)

`generate_fingerprints` loads `community_map.json` (node id, as a string key,
mapped to its macro/micro community), groups the `str(node_id)` values by
macro community id and by micro community id, and hashes each group with
`_hash_nodes` (sort, join with ",", SHA-256).  SHA-256 itself is external
(`hashlib`); it is a fixed deterministic function of the joined string, so it
is abstracted as the parameter `sha256`. -/

/-- `_hash_nodes`: sort the node-id strings (Python `sorted`, lexicographic on
strings), join with ",", hash. -/
def hash_nodes (sha256 : String → String) (node_list : List String) : String :=
  sha256 (String.intercalate "," (node_list.insertionSort (fun a b => a ≤ b)))

/-- The fingerprint dictionaries returned by `generate_fingerprints`. -/
structure Fingerprints where
  macro_communities : List (Int × String)
  micro_communities : List (Int × String)
deriving DecidableEq, Repr

/-- The single grouping loop of `generate_fingerprints`: bucket `str(node_id)`
by macro id and, separately, by micro id. -/
def communityGroups (community_map : List (String × CommEntry)) :
    List (Int × List String) × List (Int × List String) :=
  community_map.foldl
    (fun acc e => (addToGroup acc.1 e.2.macro_community e.1,
                   addToGroup acc.2 e.2.micro_community e.1))
    ([], [])

/-- `generate_fingerprints`: group, then hash each group with `_hash_nodes`. -/
def generate_fingerprints (sha256 : String → String)
    (community_map : List (String × CommEntry)) : Fingerprints :=
  let groups := communityGroups community_map
  { macro_communities := groups.1.map (fun g => (g.1, hash_nodes sha256 g.2))
    micro_communities := groups.2.map (fun g => (g.1, hash_nodes sha256 g.2)) }

theorem hash_nodes_perm (sha256 : String → String) (l₁ l₂ : List String)
    (hp : l₁.Perm l₂) : hash_nodes sha256 l₁ = hash_nodes sha256 l₂ := by
  haveI : IsAntisymm String (fun a b : String => a ≤ b) := ⟨fun _ _ h h' => le_antisymm h h'⟩
  have hperm : (l₁.insertionSort (fun a b => a ≤ b)).Perm
      (l₂.insertionSort (fun a b => a ≤ b)) :=
    (List.perm_insertionSort (fun a b => a ≤ b) l₁).trans
      (hp.trans (List.perm_insertionSort (fun a b => a ≤ b) l₂).symm)
  have h : l₁.insertionSort (fun a b => a ≤ b) = l₂.insertionSort (fun a b => a ≤ b) :=
    List.eq_of_perm_of_sorted hperm
      (List.sorted_insertionSort (fun a b => a ≤ b) l₁)
      (List.sorted_insertionSort (fun a b => a ≤ b) l₂)
  unfold hash_nodes
  rw [h]

/-- C1: the fingerprint of a community depends only on the set (indeed the
multiset up to permutation) of its member node ids: `_hash_nodes` sorts the
member-id strings, joins them with commas and hashes the join, so member
lists that are permutations of each other get byte-identical hashes, the
macro- and micro-fingerprint of any community id agree between two runs whose
grouped member lists are permutations of each other, and calling
`generate_fingerprints` twice on the same assignment yields identical
results. -/
theorem generate_fingerprints_perm_invariant
    (sha256 : String → String) (m₁ m₂ : List (String × CommEntry)) (c : Int)
    (l₁ l₂ : List String) (hp : l₁.Perm l₂) :
    (hash_nodes sha256 l₁ = hash_nodes sha256 l₂) ∧
    (alookup (communityGroups m₁).1 c = some l₁ →
      alookup (communityGroups m₂).1 c = some l₂ →
      alookup (generate_fingerprints sha256 m₁).macro_communities c =
        alookup (generate_fingerprints sha256 m₂).macro_communities c) ∧
    (alookup (communityGroups m₁).2 c = some l₁ →
      alookup (communityGroups m₂).2 c = some l₂ →
      alookup (generate_fingerprints sha256 m₁).micro_communities c =
        alookup (generate_fingerprints sha256 m₂).micro_communities c) ∧
    generate_fingerprints sha256 m₁ = generate_fingerprints sha256 m₁ := by
  refine ⟨hash_nodes_perm sha256 l₁ l₂ hp, ?_, ?_, rfl⟩
  · intro h₁ h₂
    simp only [generate_fingerprints, alookup_map, h₁, h₂]
    simp [hash_nodes_perm sha256 l₁ l₂ hp]
  · intro h₁ h₂
    simp only [generate_fingerprints, alookup_map, h₁, h₂]
    simp [hash_nodes_perm sha256 l₁ l₂ hp]

/-- C1 witness: two concrete community maps whose macro community 0 collects
the same members in different discovery orders get the same fingerprint. -/
theorem generate_fingerprints_perm_invariant_witness :
    (["2", "1"].Perm ["1", "2"]) ∧
    ((hash_nodes id ["2", "1"] = hash_nodes id ["1", "2"]) ∧
     (alookup (communityGroups [("2", ⟨0, 0⟩), ("1", ⟨0, 0⟩)]).1 0 = some ["2", "1"] →
       alookup (communityGroups [("1", ⟨0, 0⟩), ("2", ⟨0, 0⟩)]).1 0 = some ["1", "2"] →
       alookup (generate_fingerprints id [("2", ⟨0, 0⟩), ("1", ⟨0, 0⟩)]).macro_communities 0 =
         alookup (generate_fingerprints id [("1", ⟨0, 0⟩), ("2", ⟨0, 0⟩)]).macro_communities 0) ∧
     (alookup (communityGroups [("2", ⟨0, 0⟩), ("1", ⟨0, 0⟩)]).2 0 = some ["2", "1"] →
       alookup (communityGroups [("1", ⟨0, 0⟩), ("2", ⟨0, 0⟩)]).2 0 = some ["1", "2"] →
       alookup (generate_fingerprints id [("2", ⟨0, 0⟩), ("1", ⟨0, 0⟩)]).micro_communities 0 =
         alookup (generate_fingerprints id [("1", ⟨0, 0⟩), ("2", ⟨0, 0⟩)]).micro_communities 0) ∧
     generate_fingerprints id [("2", ⟨0, 0⟩), ("1", ⟨0, 0⟩)] =
       generate_fingerprints id [("2", ⟨0, 0⟩), ("1", ⟨0, 0⟩)]) :=
  ⟨by decide,
   generate_fingerprints_perm_invariant id
     [("2", ⟨0, 0⟩), ("1", ⟨0, 0⟩)] [("1", ⟨0, 0⟩), ("2", ⟨0, 0⟩)] 0
     ["2", "1"] ["1", "2"] (by decide)⟩

/-! ## `DriftDetector.py` (`DriftDetector.detect_drift`)

Compares a current community map against a baseline: nodes of `current` are
classified stable / migrated / new in iteration order, `total_nodes` is the
size of the union of key sets, and `stability_index = 1 - drift_count/total`
(left at its initial `0.0` when `total = 0`).  Python float division becomes
exact division in `ℚ`. -/

/-- One migrated-node record, as appended to `drift_results["migrated_nodes"]`. -/
structure DriftRecord where
  node_id : String
  from_macro : Int
  to_macro : Int
  from_micro : Int
  to_micro : Int
  drift_type : String
deriving DecidableEq, Repr

/-- The `drift_results` dictionary (summary fields inlined). -/
structure DriftResults where
  stable_nodes : List String
  migrated_nodes : List DriftRecord
  new_nodes : List String
  total_nodes : Nat
  drift_count : Nat
  stability_index : ℚ
deriving DecidableEq, Repr

/-- `is_macro_drift or is_micro_drift` for one current/baseline entry pair. -/
def driftCond (curr prev : CommEntry) : Prop :=
  curr.macro_community ≠ prev.macro_community ∨ curr.micro_community ≠ prev.micro_community

instance (curr prev : CommEntry) : Decidable (driftCond curr prev) := by
  unfold driftCond; infer_instance

/-- The record appended for a migrated node (`"MACRO" if is_macro_drift else
"MICRO"`). -/
def driftRecordOf (node_id : String) (curr prev : CommEntry) : DriftRecord :=
  { node_id := node_id
    from_macro := prev.macro_community, to_macro := curr.macro_community
    from_micro := prev.micro_community, to_micro := curr.micro_community
    drift_type := if curr.macro_community ≠ prev.macro_community then "MACRO" else "MICRO" }

/-- One iteration of the `for node_id in current_map.keys()` loop, acting on
the accumulated `(stable, migrated, new, drift_count)`. -/
def driftStep (baseline : List (String × CommEntry))
    (acc : List String × List DriftRecord × List String × Nat)
    (e : String × CommEntry) : List String × List DriftRecord × List String × Nat :=
  match alookup baseline e.1 with
  | none => (acc.1, acc.2.1, acc.2.2.1 ++ [e.1], acc.2.2.2)
  | some prev =>
    if driftCond e.2 prev then
      (acc.1, acc.2.1 ++ [driftRecordOf e.1 e.2 prev], acc.2.2.1, acc.2.2.2 + 1)
    else
      (acc.1 ++ [e.1], acc.2.1, acc.2.2.1, acc.2.2.2)

/-- `detect_drift`. -/
def detect_drift (current baseline : List (String × CommEntry)) : DriftResults :=
  let total := (current.map Prod.fst ++ baseline.map Prod.fst).dedup.length
  let r := current.foldl (driftStep baseline) ([], [], [], 0)
  { stable_nodes := r.1, migrated_nodes := r.2.1, new_nodes := r.2.2.1
    total_nodes := total, drift_count := r.2.2.2
    stability_index := if 0 < total then 1 - (r.2.2.2 : ℚ) / (total : ℚ) else 0 }

/-- What the loop contributes for one entry, `new` component. -/
def newClass (baseline : List (String × CommEntry)) (e : String × CommEntry) : Option String :=
  match alookup baseline e.1 with
  | none => some e.1
  | some _ => none

/-- What the loop contributes for one entry, `migrated` component. -/
def migratedClass (baseline : List (String × CommEntry)) (e : String × CommEntry) :
    Option DriftRecord :=
  match alookup baseline e.1 with
  | none => none
  | some prev => if driftCond e.2 prev then some (driftRecordOf e.1 e.2 prev) else none

/-- What the loop contributes for one entry, `stable` component. -/
def stableClass (baseline : List (String × CommEntry)) (e : String × CommEntry) :
    Option String :=
  match alookup baseline e.1 with
  | none => none
  | some prev => if driftCond e.2 prev then none else some e.1

theorem driftFold_eq (baseline current : List (String × CommEntry))
    (acc : List String × List DriftRecord × List String × Nat) :
    current.foldl (driftStep baseline) acc =
      (acc.1 ++ current.filterMap (stableClass baseline),
       acc.2.1 ++ current.filterMap (migratedClass baseline),
       acc.2.2.1 ++ current.filterMap (newClass baseline),
       acc.2.2.2 + (current.filterMap (migratedClass baseline)).length) := by
  induction current generalizing acc with
  | nil => simp
  | cons e rest ih =>
      rw [List.foldl_cons, ih]
      cases h : alookup baseline e.1 with
      | none =>
          simp [driftStep, newClass, migratedClass, stableClass, h]
      | some prev =>
          by_cases hd : driftCond e.2 prev <;>
            simp [driftStep, newClass, migratedClass, stableClass, h, hd, Nat.add_assoc,
              Nat.add_comm 1]

theorem migratedClass_node_id (baseline : List (String × CommEntry))
    (e : String × CommEntry) (r : DriftRecord)
    (h : migratedClass baseline e = some r) : r.node_id = e.1 := by
  unfold migratedClass at h
  split at h
  · simp at h
  · split at h
    · rw [← Option.some.inj h]; rfl
    · simp at h

theorem filter_migrated_by_node (baseline current : List (String × CommEntry)) (n : String) :
    (current.filterMap (migratedClass baseline)).filter (fun r => r.node_id = n) =
      (current.filter (fun e => e.1 = n)).filterMap (migratedClass baseline) := by
  induction current with
  | nil => rfl
  | cons e rest ih =>
      cases h : migratedClass baseline e with
      | none =>
          by_cases he : e.1 = n <;> simp [List.filterMap_cons, List.filter_cons, h, he, ih]
      | some r =>
          have hid : r.node_id = e.1 := migratedClass_node_id baseline e r h
          by_cases he : e.1 = n <;>
            simp [List.filterMap_cons, List.filter_cons, h, he, hid, ih]

theorem filter_key_nodup {α : Type} (l : List (String × α)) (n : String) (c : α)
    (hnd : (l.map Prod.fst).Nodup) (hmem : (n, c) ∈ l) :
    l.filter (fun e => e.1 = n) = [(n, c)] := by
  induction l with
  | nil => cases hmem
  | cons e rest ih =>
      rcases List.mem_cons.mp hmem with he | he
      · subst he
        have hn : n ∉ rest.map Prod.fst := (List.nodup_cons.mp hnd).1
        have : rest.filter (fun e => e.1 = n) = [] := by
          apply List.filter_eq_nil_iff.mpr
          intro a ha hq
          exact hn (List.mem_map.mpr ⟨a, ha, by simpa using hq⟩)
        simp [List.filter_cons, this]
      · have hn : e.1 ≠ n := by
          intro hq
          exact (List.nodup_cons.mp hnd).1
            (List.mem_map.mpr ⟨(n, c), he, by simpa using hq.symm⟩)
        simp [List.filter_cons, hn, ih (List.nodup_cons.mp hnd).2 he]

/-- C3: `detect_drift` classifies every node of the current assignment — the
three output lists are exactly the new/migrated/stable selections of the
`current` entries in order; a node absent from the baseline is classified
new; a node whose macro or micro community differs from the baseline yields
exactly one migrated record carrying the four from/to fields, tagged "MACRO"
whenever the macro id differs (even when both differ) and "MICRO" otherwise;
an unchanged node is classified stable; and the literal drift scenario gives
node 1 stable, node 2 migrated with drift type MACRO, node 3 new, and
`drift_count = 1`. -/
theorem detect_drift_classification (current baseline : List (String × CommEntry))
    (n : String) (c : CommEntry)
    (hnd : (current.map Prod.fst).Nodup) (hmem : (n, c) ∈ current) :
    ((detect_drift current baseline).new_nodes = current.filterMap (newClass baseline) ∧
     (detect_drift current baseline).migrated_nodes =
       current.filterMap (migratedClass baseline) ∧
     (detect_drift current baseline).stable_nodes =
       current.filterMap (stableClass baseline)) ∧
    (alookup baseline n = none → n ∈ (detect_drift current baseline).new_nodes) ∧
    (∀ prev : CommEntry, alookup baseline n = some prev → driftCond c prev →
      ((detect_drift current baseline).migrated_nodes.filter (fun r => r.node_id = n)) =
        [{ node_id := n
           from_macro := prev.macro_community, to_macro := c.macro_community
           from_micro := prev.micro_community, to_micro := c.micro_community
           drift_type := if c.macro_community ≠ prev.macro_community
                         then "MACRO" else "MICRO" }]) ∧
    (∀ prev : CommEntry, alookup baseline n = some prev → ¬ driftCond c prev →
      n ∈ (detect_drift current baseline).stable_nodes) ∧
    ((detect_drift [("1", ⟨0, 0⟩), ("2", ⟨1, 1⟩), ("3", ⟨1, 1⟩)]
        [("1", ⟨0, 0⟩), ("2", ⟨0, 0⟩)]).stable_nodes = ["1"] ∧
     (detect_drift [("1", ⟨0, 0⟩), ("2", ⟨1, 1⟩), ("3", ⟨1, 1⟩)]
        [("1", ⟨0, 0⟩), ("2", ⟨0, 0⟩)]).migrated_nodes =
       [{ node_id := "2", from_macro := 0, to_macro := 1, from_micro := 0, to_micro := 1,
          drift_type := "MACRO" }] ∧
     (detect_drift [("1", ⟨0, 0⟩), ("2", ⟨1, 1⟩), ("3", ⟨1, 1⟩)]
        [("1", ⟨0, 0⟩), ("2", ⟨0, 0⟩)]).new_nodes = ["3"] ∧
     (detect_drift [("1", ⟨0, 0⟩), ("2", ⟨1, 1⟩), ("3", ⟨1, 1⟩)]
        [("1", ⟨0, 0⟩), ("2", ⟨0, 0⟩)]).drift_count = 1) := by
  have heq := driftFold_eq baseline current ([], [], [], 0)
  have hnew : (detect_drift current baseline).new_nodes =
      current.filterMap (newClass baseline) := by
    simp [detect_drift, heq]
  have hmig : (detect_drift current baseline).migrated_nodes =
      current.filterMap (migratedClass baseline) := by
    simp [detect_drift, heq]
  have hstab : (detect_drift current baseline).stable_nodes =
      current.filterMap (stableClass baseline) := by
    simp [detect_drift, heq]
  refine ⟨⟨hnew, hmig, hstab⟩, ?_, ?_, ?_, ?_⟩
  · intro hb
    rw [hnew]
    exact List.mem_filterMap.mpr ⟨(n, c), hmem, by simp [newClass, hb]⟩
  · intro prev hb hd
    rw [hmig, filter_migrated_by_node, filter_key_nodup current n c hnd hmem]
    simp [migratedClass, hb, hd, driftRecordOf]
  · intro prev hb hd
    rw [hstab]
    exact List.mem_filterMap.mpr ⟨(n, c), hmem, by simp [stableClass, hb, hd]⟩
  · exact ⟨by decide, by decide, by decide, by decide⟩

/-- C3 witness: the classification theorem applied to the literal drift
scenario at node "2". -/
theorem detect_drift_classification_witness :
    (([("1", (⟨0, 0⟩ : CommEntry)), ("2", ⟨1, 1⟩), ("3", ⟨1, 1⟩)].map Prod.fst).Nodup ∧
      ("2", (⟨1, 1⟩ : CommEntry)) ∈
        [("1", (⟨0, 0⟩ : CommEntry)), ("2", ⟨1, 1⟩), ("3", ⟨1, 1⟩)]) ∧
    (((detect_drift [("1", ⟨0, 0⟩), ("2", ⟨1, 1⟩), ("3", ⟨1, 1⟩)]
        [("1", ⟨0, 0⟩), ("2", ⟨0, 0⟩)]).new_nodes =
        [("1", (⟨0, 0⟩ : CommEntry)), ("2", ⟨1, 1⟩), ("3", ⟨1, 1⟩)].filterMap
          (newClass [("1", ⟨0, 0⟩), ("2", ⟨0, 0⟩)]) ∧
      (detect_drift [("1", ⟨0, 0⟩), ("2", ⟨1, 1⟩), ("3", ⟨1, 1⟩)]
        [("1", ⟨0, 0⟩), ("2", ⟨0, 0⟩)]).migrated_nodes =
        [("1", (⟨0, 0⟩ : CommEntry)), ("2", ⟨1, 1⟩), ("3", ⟨1, 1⟩)].filterMap
          (migratedClass [("1", ⟨0, 0⟩), ("2", ⟨0, 0⟩)]) ∧
      (detect_drift [("1", ⟨0, 0⟩), ("2", ⟨1, 1⟩), ("3", ⟨1, 1⟩)]
        [("1", ⟨0, 0⟩), ("2", ⟨0, 0⟩)]).stable_nodes =
        [("1", (⟨0, 0⟩ : CommEntry)), ("2", ⟨1, 1⟩), ("3", ⟨1, 1⟩)].filterMap
          (stableClass [("1", ⟨0, 0⟩), ("2", ⟨0, 0⟩)])) ∧
     (alookup [("1", (⟨0, 0⟩ : CommEntry)), ("2", ⟨0, 0⟩)] "2" = none →
       "2" ∈ (detect_drift [("1", ⟨0, 0⟩), ("2", ⟨1, 1⟩), ("3", ⟨1, 1⟩)]
         [("1", ⟨0, 0⟩), ("2", ⟨0, 0⟩)]).new_nodes) ∧
     (∀ prev : CommEntry,
        alookup [("1", (⟨0, 0⟩ : CommEntry)), ("2", ⟨0, 0⟩)] "2" = some prev →
        driftCond ⟨1, 1⟩ prev →
        ((detect_drift [("1", ⟨0, 0⟩), ("2", ⟨1, 1⟩), ("3", ⟨1, 1⟩)]
            [("1", ⟨0, 0⟩), ("2", ⟨0, 0⟩)]).migrated_nodes.filter
          (fun r => r.node_id = "2")) =
          [{ node_id := "2"
             from_macro := prev.macro_community, to_macro := (1 : Int)
             from_micro := prev.micro_community, to_micro := (1 : Int)
             drift_type := if (1 : Int) ≠ prev.macro_community then "MACRO" else "MICRO" }]) ∧
     (∀ prev : CommEntry,
        alookup [("1", (⟨0, 0⟩ : CommEntry)), ("2", ⟨0, 0⟩)] "2" = some prev →
        ¬ driftCond ⟨1, 1⟩ prev →
        "2" ∈ (detect_drift [("1", ⟨0, 0⟩), ("2", ⟨1, 1⟩), ("3", ⟨1, 1⟩)]
          [("1", ⟨0, 0⟩), ("2", ⟨0, 0⟩)]).stable_nodes) ∧
     ((detect_drift [("1", ⟨0, 0⟩), ("2", ⟨1, 1⟩), ("3", ⟨1, 1⟩)]
         [("1", ⟨0, 0⟩), ("2", ⟨0, 0⟩)]).stable_nodes = ["1"] ∧
      (detect_drift [("1", ⟨0, 0⟩), ("2", ⟨1, 1⟩), ("3", ⟨1, 1⟩)]
         [("1", ⟨0, 0⟩), ("2", ⟨0, 0⟩)]).migrated_nodes =
        [{ node_id := "2", from_macro := 0, to_macro := 1, from_micro := 0, to_micro := 1,
           drift_type := "MACRO" }] ∧
      (detect_drift [("1", ⟨0, 0⟩), ("2", ⟨1, 1⟩), ("3", ⟨1, 1⟩)]
         [("1", ⟨0, 0⟩), ("2", ⟨0, 0⟩)]).new_nodes = ["3"] ∧
      (detect_drift [("1", ⟨0, 0⟩), ("2", ⟨1, 1⟩), ("3", ⟨1, 1⟩)]
         [("1", ⟨0, 0⟩), ("2", ⟨0, 0⟩)]).drift_count = 1)) :=
  ⟨⟨by decide, by decide⟩,
   detect_drift_classification
     [("1", ⟨0, 0⟩), ("2", ⟨1, 1⟩), ("3", ⟨1, 1⟩)]
     [("1", ⟨0, 0⟩), ("2", ⟨0, 0⟩)] "2" ⟨1, 1⟩ (by decide) (by decide)⟩

/-- C4: in every `DriftReport`, `total_nodes` is the size of the union of the
node-id sets of the two assignments; when `total_nodes > 0` the stability
index equals `1 - drift_count/total_nodes`, when `total_nodes = 0` it is
exactly `0`, and it always lies in `[0, 1]`. -/
theorem detect_drift_summary (current baseline : List (String × CommEntry))
    (hnd : (current.map Prod.fst).Nodup) :
    (detect_drift current baseline).total_nodes =
      ((current.map Prod.fst).toFinset ∪ (baseline.map Prod.fst).toFinset).card ∧
    (0 < (detect_drift current baseline).total_nodes →
      (detect_drift current baseline).stability_index =
        1 - ((detect_drift current baseline).drift_count : ℚ) /
            ((detect_drift current baseline).total_nodes : ℚ)) ∧
    ((detect_drift current baseline).total_nodes = 0 →
      (detect_drift current baseline).stability_index = 0) ∧
    0 ≤ (detect_drift current baseline).stability_index ∧
    (detect_drift current baseline).stability_index ≤ 1 := by
  have htot : (detect_drift current baseline).total_nodes =
      (current.map Prod.fst ++ baseline.map Prod.fst).dedup.length := rfl
  have hcard : (detect_drift current baseline).total_nodes =
      ((current.map Prod.fst).toFinset ∪ (baseline.map Prod.fst).toFinset).card := by
    rw [htot, ← List.toFinset_append, List.card_toFinset]
  have hdc : (detect_drift current baseline).drift_count =
      (current.filterMap (migratedClass baseline)).length := by
    simp [detect_drift, driftFold_eq baseline current ([], [], [], 0)]
  have hdcle : (detect_drift current baseline).drift_count ≤
      (detect_drift current baseline).total_nodes := by
    rw [hdc, hcard]
    calc (current.filterMap (migratedClass baseline)).length
        ≤ current.length := List.length_filterMap_le _ _
      _ = (current.map Prod.fst).length := (List.length_map _ _).symm
      _ = (current.map Prod.fst).toFinset.card := (List.toFinset_card_of_nodup hnd).symm
      _ ≤ ((current.map Prod.fst).toFinset ∪ (baseline.map Prod.fst).toFinset).card :=
          Finset.card_le_card Finset.subset_union_left
  have hindex : (detect_drift current baseline).stability_index =
      if 0 < (detect_drift current baseline).total_nodes then
        1 - ((detect_drift current baseline).drift_count : ℚ) /
            ((detect_drift current baseline).total_nodes : ℚ)
      else 0 := by
    simp only [detect_drift, driftFold_eq baseline current ([], [], [], 0)]
  by_cases h0 : 0 < (detect_drift current baseline).total_nodes
  · have hpos : (0 : ℚ) < ((detect_drift current baseline).total_nodes : ℚ) := by
      exact_mod_cast h0
    have hqle : ((detect_drift current baseline).drift_count : ℚ) /
        ((detect_drift current baseline).total_nodes : ℚ) ≤ 1 :=
      (div_le_one hpos).mpr (by exact_mod_cast hdcle)
    have hqnn : 0 ≤ ((detect_drift current baseline).drift_count : ℚ) /
        ((detect_drift current baseline).total_nodes : ℚ) :=
      div_nonneg (by positivity) (by positivity)
    refine ⟨hcard, fun _ => by rw [hindex, if_pos h0], fun hz => absurd hz (Nat.pos_iff_ne_zero.mp h0),
      ?_, ?_⟩
    · rw [hindex, if_pos h0]; linarith
    · rw [hindex, if_pos h0]; linarith
  · refine ⟨hcard, fun hc => absurd hc h0, fun _ => by rw [hindex, if_neg h0], ?_, ?_⟩
    · rw [hindex, if_neg h0]
    · rw [hindex, if_neg h0]; norm_num

/-- C4 witness: the summary theorem at the literal drift scenario
(`total_nodes = 3`, `drift_count = 1`, `stability_index = 2/3`). -/
theorem detect_drift_summary_witness :
    (([("1", (⟨0, 0⟩ : CommEntry)), ("2", ⟨1, 1⟩), ("3", ⟨1, 1⟩)].map Prod.fst).Nodup) ∧
    ((detect_drift [("1", ⟨0, 0⟩), ("2", ⟨1, 1⟩), ("3", ⟨1, 1⟩)]
        [("1", ⟨0, 0⟩), ("2", ⟨0, 0⟩)]).total_nodes =
      (([("1", (⟨0, 0⟩ : CommEntry)), ("2", ⟨1, 1⟩), ("3", ⟨1, 1⟩)].map
          Prod.fst).toFinset ∪
        ([("1", (⟨0, 0⟩ : CommEntry)), ("2", ⟨0, 0⟩)].map Prod.fst).toFinset).card ∧
     (0 < (detect_drift [("1", ⟨0, 0⟩), ("2", ⟨1, 1⟩), ("3", ⟨1, 1⟩)]
         [("1", ⟨0, 0⟩), ("2", ⟨0, 0⟩)]).total_nodes →
       (detect_drift [("1", ⟨0, 0⟩), ("2", ⟨1, 1⟩), ("3", ⟨1, 1⟩)]
         [("1", ⟨0, 0⟩), ("2", ⟨0, 0⟩)]).stability_index =
         1 - ((detect_drift [("1", ⟨0, 0⟩), ("2", ⟨1, 1⟩), ("3", ⟨1, 1⟩)]
             [("1", ⟨0, 0⟩), ("2", ⟨0, 0⟩)]).drift_count : ℚ) /
             ((detect_drift [("1", ⟨0, 0⟩), ("2", ⟨1, 1⟩), ("3", ⟨1, 1⟩)]
             [("1", ⟨0, 0⟩), ("2", ⟨0, 0⟩)]).total_nodes : ℚ)) ∧
     ((detect_drift [("1", ⟨0, 0⟩), ("2", ⟨1, 1⟩), ("3", ⟨1, 1⟩)]
         [("1", ⟨0, 0⟩), ("2", ⟨0, 0⟩)]).total_nodes = 0 →
       (detect_drift [("1", ⟨0, 0⟩), ("2", ⟨1, 1⟩), ("3", ⟨1, 1⟩)]
         [("1", ⟨0, 0⟩), ("2", ⟨0, 0⟩)]).stability_index = 0) ∧
     0 ≤ (detect_drift [("1", ⟨0, 0⟩), ("2", ⟨1, 1⟩), ("3", ⟨1, 1⟩)]
         [("1", ⟨0, 0⟩), ("2", ⟨0, 0⟩)]).stability_index ∧
     (detect_drift [("1", ⟨0, 0⟩), ("2", ⟨1, 1⟩), ("3", ⟨1, 1⟩)]
         [("1", ⟨0, 0⟩), ("2", ⟨0, 0⟩)]).stability_index ≤ 1) :=
  ⟨by decide,
   detect_drift_summary
     [("1", ⟨0, 0⟩), ("2", ⟨1, 1⟩), ("3", ⟨1, 1⟩)]
     [("1", ⟨0, 0⟩), ("2", ⟨0, 0⟩)] (by decide)⟩

/-! ## `BridgeIdentifier.py` (`BridgeIdentifier.identify_bridges`)

Scans every edge of the weighted projection against the flattened community
map; when both endpoints are assigned and their macro (resp. micro)
communities differ, `_update_score` increments both endpoints' macro (resp.
micro) bridge scores.  The `bridge_data` dict (insertion-ordered, entries
created on first increment, missing keys read as 0 via `scores.get(key, 0)`)
becomes an association list of `Scores`; the final stable
`sort(key=(macro_score, micro_score), reverse=True)` becomes
`insertionSort bridgeBefore`.  Node ids are the `str(int(...))` CSV values,
modelled as `Int`. -/

/-- A node's score dict inside `bridge_data`; absent keys read as `0`. -/
structure Scores where
  macroScore : Nat
  microScore : Nat
deriving DecidableEq, Repr

/-- One element of the returned bridge list. -/
structure Bridge where
  node_id : Int
  macro_score : Nat
  micro_score : Nat
deriving DecidableEq, Repr

/-- `data[node_id][key] = data[node_id].get(key, 0) + 1` for the two keys. -/
def bump : Bool → Scores → Scores
  | true, s => ⟨s.macroScore + 1, s.microScore⟩
  | false, s => ⟨s.macroScore, s.microScore + 1⟩

/-- `_update_score`: create the node's entry on first sight (at the end, in
dict insertion order), then increment the requested key. -/
def update_score (data : List (Int × Scores)) (node_id : Int) (isMacroKey : Bool) :
    List (Int × Scores) :=
  match data with
  | [] => [(node_id, bump isMacroKey ⟨0, 0⟩)]
  | e :: rest =>
    if e.1 = node_id then (e.1, bump isMacroKey e.2) :: rest
    else e :: update_score rest node_id isMacroKey

/-- The body of the edge loop of `identify_bridges` for one edge. -/
def bridgeStep (cmap : List (Int × CommEntry)) (data : List (Int × Scores))
    (edge : Int × Int) : List (Int × Scores) :=
  match alookup cmap edge.1, alookup cmap edge.2 with
  | some src_comm, some tgt_comm =>
    let d1 := if src_comm.macro_community ≠ tgt_comm.macro_community then
        update_score (update_score data edge.1 true) edge.2 true else data
    if src_comm.micro_community ≠ tgt_comm.micro_community then
        update_score (update_score d1 edge.1 false) edge.2 false else d1
  | _, _ => data

/-- Python tuple `<=` on the `(macro_score, micro_score)` sort key. -/
def pairLexLe (a b : Nat × Nat) : Prop := a.1 < b.1 ∨ (a.1 = b.1 ∧ a.2 ≤ b.2)

instance (a b : Nat × Nat) : Decidable (pairLexLe a b) := by
  unfold pairLexLe; infer_instance

/-- `x` may precede `y` in the `reverse=True` sort: `y`'s key is `<=` `x`'s. -/
def bridgeBefore (x y : Bridge) : Prop :=
  pairLexLe (y.macro_score, y.micro_score) (x.macro_score, x.micro_score)

instance (x y : Bridge) : Decidable (bridgeBefore x y) := by
  unfold bridgeBefore; infer_instance

instance : IsTotal Bridge bridgeBefore :=
  ⟨fun x y => by unfold bridgeBefore pairLexLe; omega⟩

instance : IsTrans Bridge bridgeBefore :=
  ⟨fun x y z hxy hyz => by
    unfold bridgeBefore pairLexLe at hxy hyz ⊢; omega⟩

/-- `identify_bridges`: fold the edge loop, convert `bridge_data` to the
bridge list (insertion order), stable-sort descending by
`(macro_score, micro_score)`. -/
def identify_bridges (edges : List (Int × Int)) (cmap : List (Int × CommEntry)) :
    List Bridge :=
  let data := edges.foldl (bridgeStep cmap) []
  let bridges := data.map (fun p => Bridge.mk p.1 p.2.macroScore p.2.microScore)
  bridges.insertionSort bridgeBefore

/-- How many macro-score increments one edge gives node `n`
(`identify_bridges` increments both endpoints when the macro communities of
the endpoints differ, and skips edges with an unassigned endpoint). -/
def edgeMacroContrib (cmap : List (Int × CommEntry)) (edge : Int × Int) (n : Int) : Nat :=
  match alookup cmap edge.1, alookup cmap edge.2 with
  | some s, some t =>
    if s.macro_community ≠ t.macro_community then
      (if edge.1 = n then 1 else 0) + (if edge.2 = n then 1 else 0)
    else 0
  | _, _ => 0

/-- Micro analogue of `edgeMacroContrib`. -/
def edgeMicroContrib (cmap : List (Int × CommEntry)) (edge : Int × Int) (n : Int) : Nat :=
  match alookup cmap edge.1, alookup cmap edge.2 with
  | some s, some t =>
    if s.micro_community ≠ t.micro_community then
      (if edge.1 = n then 1 else 0) + (if edge.2 = n then 1 else 0)
    else 0
  | _, _ => 0

/-- Total macro cross-community incidences of node `n`, as the claim states
them. -/
def macroCrossCount (cmap : List (Int × CommEntry)) (edges : List (Int × Int)) (n : Int) :
    Nat :=
  (edges.map (fun e => edgeMacroContrib cmap e n)).sum

/-- Total micro cross-community incidences of node `n`. -/
def microCrossCount (cmap : List (Int × CommEntry)) (edges : List (Int × Int)) (n : Int) :
    Nat :=
  (edges.map (fun e => edgeMicroContrib cmap e n)).sum

/-- Combine an optional existing score entry with extra increments; entries
are created only by a first increment. -/
def addC (o : Option Scores) (dm du : Nat) : Option Scores :=
  if dm = 0 ∧ du = 0 then o
  else some ⟨(o.getD ⟨0, 0⟩).macroScore + dm, (o.getD ⟨0, 0⟩).microScore + du⟩

theorem alookup_update_score (data : List (Int × Scores)) (node_id : Int)
    (isMacroKey : Bool) (m : Int) :
    alookup (update_score data node_id isMacroKey) m =
      if node_id = m then some (bump isMacroKey ((alookup data node_id).getD ⟨0, 0⟩))
      else alookup data m := by
  induction data with
  | nil =>
      by_cases h : node_id = m
      · subst h; simp [update_score, alookup_cons, alookup_nil]
      · simp [update_score, alookup_cons, alookup_nil, h]
  | cons e rest ih =>
      by_cases hg : e.1 = node_id
      · by_cases h : node_id = m
        · subst h
          simp [update_score, hg, alookup_cons]
        · have hg' : ¬ e.1 = m := fun hh => h (hg.symm.trans hh)
          simp [update_score, hg, alookup_cons, hg', h]
      · by_cases hgm : e.1 = m
        · have h : ¬ node_id = m := fun hh => hg (hgm.trans hh.symm)
          simp [update_score, hg, alookup_cons, hgm, h, Ne.symm h]
        · simp [update_score, hg, alookup_cons, hgm, ih]

theorem addC_addC (o : Option Scores) (a b c d : Nat) :
    addC (addC o a b) c d = addC o (a + c) (b + d) := by
  unfold addC
  by_cases hab : a = 0 ∧ b = 0
  · obtain ⟨rfl, rfl⟩ := hab
    simp
  · by_cases hcd : c = 0 ∧ d = 0
    · obtain ⟨rfl, rfl⟩ := hcd
      have : ¬ (a + 0 = 0 ∧ b + 0 = 0) := by omega
      simp [hab, this]
    · have h2 : ¬ (a + c = 0 ∧ b + d = 0) := by omega
      simp only [if_neg hab, if_neg hcd, if_neg h2, Option.getD_some, Nat.add_assoc]

theorem alookup_update2_true (d : List (Int × Scores)) (e1 e2 m : Int) :
    alookup (update_score (update_score d e1 true) e2 true) m =
      addC (alookup d m) ((if e1 = m then 1 else 0) + (if e2 = m then 1 else 0)) 0 := by
  rw [alookup_update_score, alookup_update_score, alookup_update_score]
  by_cases he1 : e1 = m <;> by_cases he2 : e2 = m <;>
    cases ho : alookup d m <;>
      simp_all [bump, addC]

theorem alookup_update2_false (d : List (Int × Scores)) (e1 e2 m : Int) :
    alookup (update_score (update_score d e1 false) e2 false) m =
      addC (alookup d m) 0 ((if e1 = m then 1 else 0) + (if e2 = m then 1 else 0)) := by
  rw [alookup_update_score, alookup_update_score, alookup_update_score]
  by_cases he1 : e1 = m <;> by_cases he2 : e2 = m <;>
    cases ho : alookup d m <;>
      simp_all [bump, addC]

theorem alookup_bridgeStep (cmap : List (Int × CommEntry)) (data : List (Int × Scores))
    (edge : Int × Int) (m : Int) :
    alookup (bridgeStep cmap data edge) m =
      addC (alookup data m) (edgeMacroContrib cmap edge m) (edgeMicroContrib cmap edge m) := by
  unfold bridgeStep edgeMacroContrib edgeMicroContrib
  cases h1 : alookup cmap edge.1 with
  | none => simp [addC]
  | some s =>
    cases h2 : alookup cmap edge.2 with
    | none => simp [addC]
    | some t =>
      simp only []
      by_cases hmac : s.macro_community ≠ t.macro_community <;>
        by_cases hmic : s.micro_community ≠ t.micro_community
      · rw [if_pos hmac, if_pos hmic, if_pos hmac, if_pos hmic,
          alookup_update2_false, alookup_update2_true, addC_addC]
        simp
      · rw [if_pos hmac, if_neg hmic, if_pos hmac, if_neg hmic,
          alookup_update2_true]
      · rw [if_neg hmac, if_pos hmic, if_neg hmac, if_pos hmic,
          alookup_update2_false]
      · rw [if_neg hmac, if_neg hmic, if_neg hmac, if_neg hmic]
        simp [addC]

theorem bridgeFold (cmap : List (Int × CommEntry)) (edges : List (Int × Int))
    (d : List (Int × Scores)) (m : Int) :
    alookup (edges.foldl (bridgeStep cmap) d) m =
      addC (alookup d m) (macroCrossCount cmap edges m) (microCrossCount cmap edges m) := by
  induction edges generalizing d with
  | nil => simp [macroCrossCount, microCrossCount, addC]
  | cons e rest ih =>
      rw [List.foldl_cons, ih, alookup_bridgeStep, addC_addC]
      simp [macroCrossCount, microCrossCount]

theorem keys_update_score (data : List (Int × Scores)) (node_id : Int) (k : Bool) :
    (update_score data node_id k).map Prod.fst =
      if node_id ∈ data.map Prod.fst then data.map Prod.fst
      else data.map Prod.fst ++ [node_id] := by
  induction data with
  | nil => simp [update_score]
  | cons e rest ih =>
      by_cases hg : e.1 = node_id
      · simp [update_score, hg]
      · by_cases hmem : node_id ∈ List.map Prod.fst rest <;>
          simp [update_score, hg, ih, Ne.symm hg, hmem]

theorem nodup_update_score (data : List (Int × Scores)) (node_id : Int) (k : Bool)
    (h : (data.map Prod.fst).Nodup) :
    ((update_score data node_id k).map Prod.fst).Nodup := by
  rw [keys_update_score]
  by_cases hmem : node_id ∈ data.map Prod.fst
  · simp [hmem, h]
  · simp [hmem, List.nodup_append, h, List.disjoint_singleton]

theorem nodup_bridgeStep (cmap : List (Int × CommEntry)) (data : List (Int × Scores))
    (edge : Int × Int) (h : (data.map Prod.fst).Nodup) :
    ((bridgeStep cmap data edge).map Prod.fst).Nodup := by
  unfold bridgeStep
  cases alookup cmap edge.1 with
  | none => exact h
  | some s =>
    cases alookup cmap edge.2 with
    | none => exact h
    | some t =>
      simp only []
      by_cases hmac : s.macro_community ≠ t.macro_community <;>
        by_cases hmic : s.micro_community ≠ t.micro_community
      · rw [if_pos hmic, if_pos hmac]
        exact nodup_update_score _ _ _ (nodup_update_score _ _ _
          (nodup_update_score _ _ _ (nodup_update_score _ _ _ h)))
      · rw [if_neg hmic, if_pos hmac]
        exact nodup_update_score _ _ _ (nodup_update_score _ _ _ h)
      · rw [if_pos hmic, if_neg hmac]
        exact nodup_update_score _ _ _ (nodup_update_score _ _ _ h)
      · rw [if_neg hmic, if_neg hmac]
        exact h

theorem nodup_bridgeFold (cmap : List (Int × CommEntry)) (edges : List (Int × Int))
    (d : List (Int × Scores)) (h : (d.map Prod.fst).Nodup) :
    (((edges.foldl (bridgeStep cmap) d)).map Prod.fst).Nodup := by
  induction edges generalizing d with
  | nil => exact h
  | cons e rest ih => exact ih _ (nodup_bridgeStep cmap d e h)

theorem alookup_of_mem_nodup {κ α : Type} [DecidableEq κ] (l : List (κ × α)) (k : κ) (a : α)
    (hnd : (l.map Prod.fst).Nodup) (hmem : (k, a) ∈ l) : alookup l k = some a := by
  induction l with
  | nil => cases hmem
  | cons e rest ih =>
      rcases List.mem_cons.mp hmem with he | he
      · rw [← he]
        simp [alookup_cons]
      · have hk : ¬ e.1 = k := by
          intro hq
          exact (List.nodup_cons.mp hnd).1
            (List.mem_map.mpr ⟨(k, a), he, by simpa using hq.symm⟩)
        rw [alookup_cons, if_neg hk]
        exact ih (List.nodup_cons.mp hnd).2 he

theorem mem_of_alookup_eq_some {κ α : Type} [DecidableEq κ] (l : List (κ × α)) (k : κ)
    (a : α) (h : alookup l k = some a) : (k, a) ∈ l := by
  unfold alookup at h
  cases hf : l.find? (fun p => p.1 = k) with
  | none => rw [hf] at h; simp at h
  | some p =>
      rw [hf] at h
      simp only [Option.map_some'] at h
      have hp := List.mem_of_find?_eq_some hf
      have hpk : p.1 = k := by simpa using List.find?_some hf
      have : p = (k, a) := by
        rw [← hpk, ← Option.some.inj h]
      rw [← this]
      exact hp

theorem bridgeStep_skip (cmap : List (Int × CommEntry)) (data : List (Int × Scores))
    (edge : Int × Int)
    (h : ¬ ((alookup cmap edge.1).isSome ∧ (alookup cmap edge.2).isSome)) :
    bridgeStep cmap data edge = data := by
  unfold bridgeStep
  cases h1 : alookup cmap edge.1 <;> cases h2 : alookup cmap edge.2 <;> simp_all

theorem bridgeFold_filter (cmap : List (Int × CommEntry)) (edges : List (Int × Int))
    (d : List (Int × Scores)) :
    edges.foldl (bridgeStep cmap) d =
      (edges.filter
        (fun e => (alookup cmap e.1).isSome && (alookup cmap e.2).isSome)).foldl
        (bridgeStep cmap) d := by
  induction edges generalizing d with
  | nil => rfl
  | cons e rest ih =>
      rw [List.foldl_cons, List.filter_cons]
      by_cases hk : ((alookup cmap e.1).isSome && (alookup cmap e.2).isSome) = true
      · rw [if_pos hk, List.foldl_cons]
        exact ih (bridgeStep cmap d e)
      · have hs : bridgeStep cmap d e = d := by
          apply bridgeStep_skip
          intro hc
          exact hk (by simp [hc.1, hc.2])
        rw [if_neg hk, hs]
        exact ih d

/-- C2: `identify_bridges` gives every listed node exactly the macro/micro
scores described by the per-edge rule (both endpoints' macro scores are
incremented when their macro communities differ, micro likewise), a node
appears in the output iff it has at least one cross-community incident edge
slot, edges with an endpoint missing from the assignment are skipped without
effect, the output is sorted by `(macro_score, micro_score)` descending, and
the literal scenario with edges `(1,2)` intra-community and `(2,3)` crossing
yields exactly nodes 2 and 3 with `macro_score = 1` and no entry for
node 1. -/
theorem identify_bridges_spec (edges : List (Int × Int)) (cmap : List (Int × CommEntry))
    (n : Int) :
    (∀ b ∈ identify_bridges edges cmap, b.node_id = n →
       b.macro_score = macroCrossCount cmap edges n ∧
       b.micro_score = microCrossCount cmap edges n) ∧
    ((∃ b ∈ identify_bridges edges cmap, b.node_id = n) ↔
       ¬ (macroCrossCount cmap edges n = 0 ∧ microCrossCount cmap edges n = 0)) ∧
    identify_bridges edges cmap =
      identify_bridges
        (edges.filter (fun e => (alookup cmap e.1).isSome && (alookup cmap e.2).isSome))
        cmap ∧
    List.Sorted bridgeBefore (identify_bridges edges cmap) ∧
    identify_bridges [(1, 2), (2, 3)] [(1, ⟨0, 0⟩), (2, ⟨0, 0⟩), (3, ⟨1, 1⟩)] =
      [⟨2, 1, 1⟩, ⟨3, 1, 1⟩] := by
  have hlook : ∀ m, alookup (edges.foldl (bridgeStep cmap) []) m =
      addC none (macroCrossCount cmap edges m) (microCrossCount cmap edges m) := by
    intro m
    rw [bridgeFold, alookup_nil]
  have hnodup : (((edges.foldl (bridgeStep cmap) [])).map Prod.fst).Nodup :=
    nodup_bridgeFold cmap edges [] (by simp)
  have hmemsort : ∀ b : Bridge,
      b ∈ identify_bridges edges cmap ↔
      b ∈ (edges.foldl (bridgeStep cmap) []).map
            (fun p => Bridge.mk p.1 p.2.macroScore p.2.microScore) := by
    intro b
    exact (List.perm_insertionSort bridgeBefore _).mem_iff
  refine ⟨?_, ?_, ?_, ?_, by decide⟩
  · intro b hb hbn
    obtain ⟨p, hp, hpb⟩ := List.mem_map.mp ((hmemsort b).mp hb)
    have hp1 : p.1 = n := by rw [← hbn, ← hpb]
    have hl : alookup (edges.foldl (bridgeStep cmap) []) n = some p.2 :=
      alookup_of_mem_nodup _ _ _ hnodup (by rw [← hp1]; exact hp)
    rw [hlook n] at hl
    unfold addC at hl
    by_cases hz : macroCrossCount cmap edges n = 0 ∧ microCrossCount cmap edges n = 0
    · rw [if_pos hz] at hl; simp at hl
    · rw [if_neg hz] at hl
      have hp2 : p.2 = ⟨macroCrossCount cmap edges n, microCrossCount cmap edges n⟩ := by
        have := Option.some.inj hl
        simp at this
        rw [← this]
      rw [← hpb, hp2]
      exact ⟨rfl, rfl⟩
  · constructor
    · rintro ⟨b, hb, hbn⟩
      obtain ⟨p, hp, hpb⟩ := List.mem_map.mp ((hmemsort b).mp hb)
      have hp1 : p.1 = n := by rw [← hbn, ← hpb]
      have hl : alookup (edges.foldl (bridgeStep cmap) []) n = some p.2 :=
        alookup_of_mem_nodup _ _ _ hnodup (by rw [← hp1]; exact hp)
      rw [hlook n] at hl
      intro hz
      rw [addC, if_pos hz] at hl
      simp at hl
    · intro hz
      have hl : alookup (edges.foldl (bridgeStep cmap) []) n =
          some ⟨macroCrossCount cmap edges n, microCrossCount cmap edges n⟩ := by
        rw [hlook n, addC, if_neg hz]
        simp
      have hmem := mem_of_alookup_eq_some _ _ _ hl
      refine ⟨Bridge.mk n (macroCrossCount cmap edges n) (microCrossCount cmap edges n),
        ?_, rfl⟩
      rw [hmemsort]
      exact List.mem_map.mpr ⟨_, hmem, rfl⟩
  · unfold identify_bridges
    rw [bridgeFold_filter]
  · exact List.sorted_insertionSort bridgeBefore _

/-- C2 witness: the bridge theorem applied to the literal scenario at
node 2. -/
theorem identify_bridges_spec_witness :
    (∀ b ∈ identify_bridges [(1, 2), (2, 3)] [(1, ⟨0, 0⟩), (2, ⟨0, 0⟩), (3, ⟨1, 1⟩)]
        , b.node_id = 2 →
       b.macro_score =
         macroCrossCount [(1, ⟨0, 0⟩), (2, ⟨0, 0⟩), (3, ⟨1, 1⟩)] [(1, 2), (2, 3)] 2 ∧
       b.micro_score =
         microCrossCount [(1, ⟨0, 0⟩), (2, ⟨0, 0⟩), (3, ⟨1, 1⟩)] [(1, 2), (2, 3)] 2) ∧
    ((∃ b ∈ identify_bridges [(1, 2), (2, 3)] [(1, ⟨0, 0⟩), (2, ⟨0, 0⟩), (3, ⟨1, 1⟩)]
        , b.node_id = 2) ↔
       ¬ (macroCrossCount [(1, ⟨0, 0⟩), (2, ⟨0, 0⟩), (3, ⟨1, 1⟩)] [(1, 2), (2, 3)] 2 = 0 ∧
          microCrossCount [(1, ⟨0, 0⟩), (2, ⟨0, 0⟩), (3, ⟨1, 1⟩)] [(1, 2), (2, 3)] 2 = 0)) ∧
    identify_bridges [(1, 2), (2, 3)] [(1, ⟨0, 0⟩), (2, ⟨0, 0⟩), (3, ⟨1, 1⟩)] =
      identify_bridges
        ([(1, 2), (2, 3)].filter
          (fun e => (alookup [((1 : Int), (⟨0, 0⟩ : CommEntry)), (2, ⟨0, 0⟩), (3, ⟨1, 1⟩)]
              e.1).isSome &&
            (alookup [((1 : Int), (⟨0, 0⟩ : CommEntry)), (2, ⟨0, 0⟩), (3, ⟨1, 1⟩)]
              e.2).isSome))
        [(1, ⟨0, 0⟩), (2, ⟨0, 0⟩), (3, ⟨1, 1⟩)] ∧
    List.Sorted bridgeBefore
      (identify_bridges [(1, 2), (2, 3)] [(1, ⟨0, 0⟩), (2, ⟨0, 0⟩), (3, ⟨1, 1⟩)]) ∧
    identify_bridges [(1, 2), (2, 3)] [(1, ⟨0, 0⟩), (2, ⟨0, 0⟩), (3, ⟨1, 1⟩)] =
      [⟨2, 1, 1⟩, ⟨3, 1, 1⟩] :=
  identify_bridges_spec [(1, 2), (2, 3)] [(1, ⟨0, 0⟩), (2, ⟨0, 0⟩), (3, ⟨1, 1⟩)] 2

/-! ## `TopologyFilter.py` (`TopologyFilter.extract_hubs`)

Groups community-map nodes by micro community, and per community either
returns the degenerate ranking (fewer than 2 members, or no internal edge),
or builds the igraph sub-graph from the internal edges (vertices appear in
first-appearance order, exactly the endpoints of internal edges), scores it
with igraph's PageRank (external — abstracted as the `pagerank` parameter),
stable-sorts descending by score, takes `top_k` and ranks `1..`.  Node ids
are modelled as `Int` (the map keys and the CSV values denote the same
integers). -/

/-- One hub entry `{node_id, score, rank}`. -/
structure Hub where
  node_id : Int
  score : ℚ
  rank : Nat
deriving DecidableEq, Repr

/-- The `comm_to_nodes` grouping by `micro_community`. -/
def comm_to_nodes (community_map : List (Int × CommEntry)) : List (Int × List Int) :=
  community_map.foldl (fun acc e => addToGroup acc e.2.micro_community e.1) []

/-- `igraph.Graph.TupleList` vertex creation: a vertex per new name, in first
appearance order (source before target, tuple by tuple). -/
def addVertex (vs : List Int) (v : Int) : List Int :=
  if v ∈ vs then vs else vs ++ [v]

/-- The vertex-name sequence (`g.vs['name']`) of `Graph.TupleList(tuples)`. -/
def vertexNames (tuples : List (Int × Int × ℚ)) : List Int :=
  tuples.foldl (fun vs t => addVertex (addVertex vs t.1) t.2.1) []

/-- `enumerate(top_hubs, 1)`: attach ranks `startRank, startRank+1, ...`. -/
def addRanks (startRank : Nat) : List (Int × ℚ) → List Hub
  | [] => []
  | p :: rest => ⟨p.1, p.2, startRank⟩ :: addRanks (startRank + 1) rest

/-- `x` may precede `y` in the stable `sort(key=score, reverse=True)`. -/
def scoreBefore (x y : Int × ℚ) : Prop := y.2 ≤ x.2

instance (x y : Int × ℚ) : Decidable (scoreBefore x y) := by
  unfold scoreBefore; infer_instance

instance : IsTotal (Int × ℚ) scoreBefore := ⟨fun x y => le_total y.2 x.2⟩

instance : IsTrans (Int × ℚ) scoreBefore := ⟨fun _ _ _ h1 h2 => le_trans h2 h1⟩

/-- The per-community body of the `extract_hubs` loop. -/
def processComm (top_k : Nat) (edges : List (Int × Int × ℚ))
    (pagerank : List (Int × Int × ℚ) → Int → ℚ) (nodes : List Int) : List Hub :=
  if nodes.length < 2 then nodes.map (fun n => ⟨n, 1, 1⟩)
  else
    let comm_edges := edges.filter (fun e => decide (e.1 ∈ nodes) && decide (e.2.1 ∈ nodes))
    if comm_edges = [] then (nodes.take top_k).map (fun n => ⟨n, 1, 1⟩)
    else
      let node_scores :=
        (vertexNames comm_edges).map (fun v => (v, pagerank comm_edges v))
      addRanks 1 ((node_scores.insertionSort scoreBefore).take top_k)

/-- `extract_hubs`. -/
def extract_hubs (top_k : Nat) (edges : List (Int × Int × ℚ))
    (community_map : List (Int × CommEntry))
    (pagerank : List (Int × Int × ℚ) → Int → ℚ) : List (Int × List Hub) :=
  (comm_to_nodes community_map).map
    (fun g => (g.1, processComm top_k edges pagerank g.2))

theorem addRanks_length (s : Nat) (l : List (Int × ℚ)) :
    (addRanks s l).length = l.length := by
  induction l generalizing s with
  | nil => rfl
  | cons p rest ih => simp [addRanks, ih]

theorem addRanks_get (s : Nat) (l : List (Int × ℚ)) (i : Nat)
    (hi : i < (addRanks s l).length) (hi' : i < l.length) :
    (addRanks s l).get ⟨i, hi⟩ =
      ⟨(l.get ⟨i, hi'⟩).1, (l.get ⟨i, hi'⟩).2, s + i⟩ := by
  induction l generalizing s i with
  | nil => exact absurd hi' (Nat.not_lt_zero i)
  | cons p rest ih =>
      cases i with
      | zero => simp [addRanks]
      | succ j =>
          have hj : j < (addRanks (s + 1) rest).length := by
            simp only [addRanks_length]
            simpa using hi'
          have hj' : j < rest.length := by simpa using hi'
          have := ih (s + 1) j hj hj'
          simp only [addRanks, List.get_cons_succ, this, Hub.mk.injEq]
          refine ⟨by trivial, by trivial, by omega⟩

theorem mem_addRanks (s : Nat) (l : List (Int × ℚ)) (h : Hub) (hmem : h ∈ addRanks s l) :
    (h.node_id, h.score) ∈ l := by
  induction l generalizing s with
  | nil => cases hmem
  | cons p rest ih =>
      rcases List.mem_cons.mp hmem with he | he
      · subst he; simp
      · exact List.mem_cons_of_mem _ (ih (s + 1) he)

theorem mem_addVertex (vs : List Int) (v w : Int) :
    w ∈ addVertex vs v ↔ w ∈ vs ∨ w = v := by
  unfold addVertex
  by_cases h : v ∈ vs
  · rw [if_pos h]
    exact ⟨fun hw => Or.inl hw, fun hw => hw.elim id (fun he => he ▸ h)⟩
  · rw [if_neg h]
    simp

theorem mem_vertexNamesAux (ts : List (Int × Int × ℚ)) (vs : List Int) (w : Int) :
    (w ∈ ts.foldl (fun vs t => addVertex (addVertex vs t.1) t.2.1) vs) ↔
      (w ∈ vs ∨ ∃ e ∈ ts, e.1 = w ∨ e.2.1 = w) := by
  induction ts generalizing vs with
  | nil => simp
  | cons e rest ih =>
      rw [List.foldl_cons, ih, mem_addVertex, mem_addVertex]
      simp only [List.mem_cons]
      constructor
      · rintro (((hv | h1) | h2) | ⟨e', he', hw⟩)
        · exact Or.inl hv
        · exact Or.inr ⟨e, Or.inl rfl, Or.inl h1.symm⟩
        · exact Or.inr ⟨e, Or.inl rfl, Or.inr h2.symm⟩
        · exact Or.inr ⟨e', Or.inr he', hw⟩
      · rintro (hv | ⟨e', (rfl | he'), hw⟩)
        · exact Or.inl (Or.inl (Or.inl hv))
        · rcases hw with h1 | h2
          · exact Or.inl (Or.inl (Or.inr h1.symm))
          · exact Or.inl (Or.inr h2.symm)
        · exact Or.inr ⟨e', he', hw⟩

theorem mem_vertexNames (ts : List (Int × Int × ℚ)) (w : Int) :
    w ∈ vertexNames ts ↔ ∃ e ∈ ts, e.1 = w ∨ e.2.1 = w := by
  unfold vertexNames
  rw [mem_vertexNamesAux]
  simp

/-- C9: `extract_hubs`, grouping by micro community, gives every community
with fewer than 2 members the degenerate ranking — each member gets rank 1
and score 1.0 regardless of `top_k` (so a single-member community yields
exactly one such entry) — and gives every community of at least 2 members
with no internal edge the degenerate ranking for up to `top_k` members in
their natural order. -/
theorem extract_hubs_degenerate (top_k : Nat) (edges : List (Int × Int × ℚ))
    (cmap : List (Int × CommEntry)) (pagerank : List (Int × Int × ℚ) → Int → ℚ)
    (c : Int) (members : List Int)
    (hm : alookup (comm_to_nodes cmap) c = some members) :
    (members.length < 2 →
      alookup (extract_hubs top_k edges cmap pagerank) c =
        some (members.map (fun n => ⟨n, 1, 1⟩))) ∧
    (members.length = 1 → ∃ n, members = [n] ∧
      alookup (extract_hubs top_k edges cmap pagerank) c = some [⟨n, 1, 1⟩]) ∧
    (2 ≤ members.length →
      edges.filter (fun e => decide (e.1 ∈ members) && decide (e.2.1 ∈ members)) = [] →
      alookup (extract_hubs top_k edges cmap pagerank) c =
        some ((members.take top_k).map (fun n => ⟨n, 1, 1⟩))) := by
  have hbase : alookup (extract_hubs top_k edges cmap pagerank) c =
      some (processComm top_k edges pagerank members) := by
    unfold extract_hubs
    rw [alookup_map, hm, Option.map_some']
  refine ⟨?_, ?_, ?_⟩
  · intro hlen
    rw [hbase]
    unfold processComm
    rw [if_pos hlen]
  · intro hlen
    match members, hlen with
    | [n], _ =>
        refine ⟨n, rfl, ?_⟩
        rw [hbase]
        rfl
  · intro hlen hempty
    rw [hbase]
    unfold processComm
    rw [if_neg (by omega), if_pos hempty]

/-- C9 witness: a single-member community `0` (node 5) gets exactly one
entry with rank 1 and score 1, with `top_k = 0`. -/
theorem extract_hubs_degenerate_witness :
    (alookup (comm_to_nodes [((5 : Int), (⟨0, 0⟩ : CommEntry))]) 0 = some [5]) ∧
    (([(5 : Int)].length < 2 →
      alookup (extract_hubs 0 [] [((5 : Int), (⟨0, 0⟩ : CommEntry))] (fun _ _ => 1)) 0 =
        some ([(5 : Int)].map (fun n => ⟨n, 1, 1⟩))) ∧
     ([(5 : Int)].length = 1 → ∃ n, [(5 : Int)] = [n] ∧
      alookup (extract_hubs 0 [] [((5 : Int), (⟨0, 0⟩ : CommEntry))] (fun _ _ => 1)) 0 =
        some [⟨n, 1, 1⟩]) ∧
     (2 ≤ [(5 : Int)].length →
      ([] : List (Int × Int × ℚ)).filter
        (fun e => decide (e.1 ∈ [(5 : Int)]) && decide (e.2.1 ∈ [(5 : Int)])) = [] →
      alookup (extract_hubs 0 [] [((5 : Int), (⟨0, 0⟩ : CommEntry))] (fun _ _ => 1)) 0 =
        some (([(5 : Int)].take 0).map (fun n => ⟨n, 1, 1⟩)))) :=
  ⟨by decide,
   extract_hubs_degenerate 0 [] [((5 : Int), ⟨0, 0⟩)] (fun _ _ => 1) 0 [5] (by decide)⟩

theorem processComm_scored (top_k : Nat) (edges : List (Int × Int × ℚ))
    (pagerank : List (Int × Int × ℚ) → Int → ℚ) (nodes : List Int)
    (hlen : ¬ nodes.length < 2)
    (hne : edges.filter (fun e => decide (e.1 ∈ nodes) && decide (e.2.1 ∈ nodes)) ≠ []) :
    processComm top_k edges pagerank nodes =
      addRanks 1
        ((((vertexNames
            (edges.filter (fun e => decide (e.1 ∈ nodes) && decide (e.2.1 ∈ nodes)))).map
          (fun v => (v, pagerank
            (edges.filter (fun e => decide (e.1 ∈ nodes) && decide (e.2.1 ∈ nodes))) v))).insertionSort
          scoreBefore).take top_k) := by
  unfold processComm
  rw [if_neg hlen, if_neg hne]

theorem addRanks_rank (l : List (Int × ℚ)) (i : Nat)
    (hi : i < (addRanks 1 l).length) (hi' : i < l.length) :
    ((addRanks 1 l).get ⟨i, hi⟩).rank = i + 1 := by
  rw [addRanks_get 1 l i hi hi']
  exact Nat.add_comm 1 i

theorem addRanks_take_scores (ns : List (Int × ℚ)) (k : Nat) (i j : Nat)
    (hi : i < (addRanks 1 ((ns.insertionSort scoreBefore).take k)).length)
    (hj : j < (addRanks 1 ((ns.insertionSort scoreBefore).take k)).length)
    (hij : i ≤ j) :
    ((addRanks 1 ((ns.insertionSort scoreBefore).take k)).get ⟨j, hj⟩).score ≤
      ((addRanks 1 ((ns.insertionSort scoreBefore).take k)).get ⟨i, hi⟩).score := by
  have hi' : i < ((ns.insertionSort scoreBefore).take k).length := by
    rw [addRanks_length] at hi; exact hi
  have hj' : j < ((ns.insertionSort scoreBefore).take k).length := by
    rw [addRanks_length] at hj; exact hj
  rw [addRanks_get 1 _ i hi hi', addRanks_get 1 _ j hj hj']
  rcases Nat.lt_or_ge i j with hlt | hge
  · have hst : List.Pairwise scoreBefore (ns.insertionSort scoreBefore) :=
      List.sorted_insertionSort scoreBefore ns
    have htk : List.Pairwise scoreBefore ((ns.insertionSort scoreBefore).take k) :=
      List.Pairwise.sublist (List.take_sublist k _) hst
    exact List.pairwise_iff_get.mp htk ⟨i, hi'⟩ ⟨j, hj'⟩ hlt
  · have hij' : i = j := Nat.le_antisymm hij hge
    subst hij'
    exact le_refl _

/-- C10: for a micro community with at least 2 members and at least one
internal edge, the scoring sub-graph holds exactly the first-appearance
endpoints of the internal edges.  Hence every returned hub entry names a
member that is an endpoint of some internal edge, a member with no internal
incident edge gets no entry at all (even when fewer than `top_k` entries are
returned), and the returned entries are ranked `1..len` in descending score
order. -/
theorem extract_hubs_scored (top_k : Nat) (edges : List (Int × Int × ℚ))
    (cmap : List (Int × CommEntry)) (pagerank : List (Int × Int × ℚ) → Int → ℚ)
    (c : Int) (members : List Int) (out : List Hub)
    (hm : alookup (comm_to_nodes cmap) c = some members)
    (hlen : ¬ members.length < 2)
    (hne : edges.filter (fun e => decide (e.1 ∈ members) && decide (e.2.1 ∈ members)) ≠ [])
    (hout : alookup (extract_hubs top_k edges cmap pagerank) c = some out) :
    (∀ h ∈ out, h.node_id ∈ members ∧
      ∃ e ∈ edges.filter (fun e => decide (e.1 ∈ members) && decide (e.2.1 ∈ members)),
        e.1 = h.node_id ∨ e.2.1 = h.node_id) ∧
    (∀ m ∈ members,
      (∀ e ∈ edges.filter (fun e => decide (e.1 ∈ members) && decide (e.2.1 ∈ members)),
         ¬ (e.1 = m ∨ e.2.1 = m)) →
      ∀ h ∈ out, h.node_id ≠ m) ∧
    (∀ i (hi : i < out.length), (out.get ⟨i, hi⟩).rank = i + 1) ∧
    (∀ i j (hi : i < out.length) (hj : j < out.length), i ≤ j →
      (out.get ⟨j, hj⟩).score ≤ (out.get ⟨i, hi⟩).score) := by
  have hpc : alookup (extract_hubs top_k edges cmap pagerank) c =
      some (processComm top_k edges pagerank members) := by
    unfold extract_hubs
    rw [alookup_map, hm, Option.map_some']
  have hout_eq : out = processComm top_k edges pagerank members := by
    rw [hpc] at hout
    exact (Option.some.inj hout).symm
  rw [processComm_scored top_k edges pagerank members hlen hne] at hout_eq
  subst hout_eq
  have hmem_names : ∀ h ∈ addRanks 1
      ((((vertexNames
          (edges.filter (fun e => decide (e.1 ∈ members) && decide (e.2.1 ∈ members)))).map
        (fun v => (v, pagerank
          (edges.filter (fun e => decide (e.1 ∈ members) && decide (e.2.1 ∈ members))) v))).insertionSort
        scoreBefore).take top_k),
      h.node_id ∈ vertexNames
        (edges.filter (fun e => decide (e.1 ∈ members) && decide (e.2.1 ∈ members))) := by
    intro h hh
    have hp := mem_addRanks 1 _ h hh
    have h1 := List.take_subset top_k _ hp
    have h2 := (List.perm_insertionSort scoreBefore _).subset h1
    obtain ⟨v, hv, heq⟩ := List.mem_map.mp h2
    have hv1 : v = h.node_id := congrArg Prod.fst heq
    rw [← hv1]
    exact hv
  refine ⟨?_, ?_, ?_, ?_⟩
  · intro h hh
    have hn := hmem_names h hh
    rw [mem_vertexNames] at hn
    obtain ⟨e, he, hend⟩ := hn
    have hf := List.mem_filter.mp he
    have hpred := hf.2
    simp only [Bool.and_eq_true, decide_eq_true_eq] at hpred
    refine ⟨?_, ⟨e, he, hend⟩⟩
    rcases hend with h1 | h2
    · rw [← h1]; exact hpred.1
    · rw [← h2]; exact hpred.2
  · intro m _ hno h hh hcontra
    have hn := hmem_names h hh
    rw [mem_vertexNames] at hn
    obtain ⟨e, he, hend⟩ := hn
    rw [hcontra] at hend
    exact hno e he hend
  · intro i hi
    have hi' : i < ((((vertexNames
        (edges.filter (fun e => decide (e.1 ∈ members) && decide (e.2.1 ∈ members)))).map
      (fun v => (v, pagerank
        (edges.filter (fun e => decide (e.1 ∈ members) && decide (e.2.1 ∈ members))) v))).insertionSort
      scoreBefore).take top_k).length := by
      rw [addRanks_length] at hi
      exact hi
    exact addRanks_rank _ i hi hi'
  · intro i j hi hj hij
    exact addRanks_take_scores _ top_k i j hi hj hij

/-- C10 witness: community `0` with members 1 and 2 joined by one internal
edge; with a constant external PageRank both members are listed, ranked 1
and 2 with descending (equal) scores. -/
theorem extract_hubs_scored_witness :
    (alookup (comm_to_nodes [((1 : Int), (⟨0, 0⟩ : CommEntry)), (2, ⟨0, 0⟩)]) 0 =
       some [1, 2] ∧
     ¬ ([(1 : Int), 2].length < 2) ∧
     ([((1 : Int), (2 : Int), (1 : ℚ))].filter
        (fun e => decide (e.1 ∈ [(1 : Int), 2]) && decide (e.2.1 ∈ [(1 : Int), 2]))) ≠ [] ∧
     alookup (extract_hubs 10 [((1 : Int), (2 : Int), (1 : ℚ))]
        [((1 : Int), (⟨0, 0⟩ : CommEntry)), (2, ⟨0, 0⟩)] (fun _ _ => 1)) 0 =
       some [⟨1, 1, 1⟩, ⟨2, 1, 2⟩]) ∧
    ((∀ h ∈ [(⟨1, 1, 1⟩ : Hub), ⟨2, 1, 2⟩], h.node_id ∈ [(1 : Int), 2] ∧
      ∃ e ∈ [((1 : Int), (2 : Int), (1 : ℚ))].filter
          (fun e => decide (e.1 ∈ [(1 : Int), 2]) && decide (e.2.1 ∈ [(1 : Int), 2])),
        e.1 = h.node_id ∨ e.2.1 = h.node_id) ∧
     (∀ m ∈ [(1 : Int), 2],
      (∀ e ∈ [((1 : Int), (2 : Int), (1 : ℚ))].filter
          (fun e => decide (e.1 ∈ [(1 : Int), 2]) && decide (e.2.1 ∈ [(1 : Int), 2])),
        ¬ (e.1 = m ∨ e.2.1 = m)) →
      ∀ h ∈ [(⟨1, 1, 1⟩ : Hub), ⟨2, 1, 2⟩], h.node_id ≠ m) ∧
     (∀ i (hi : i < [(⟨1, 1, 1⟩ : Hub), ⟨2, 1, 2⟩].length),
       ([(⟨1, 1, 1⟩ : Hub), ⟨2, 1, 2⟩].get ⟨i, hi⟩).rank = i + 1) ∧
     (∀ i j (hi : i < [(⟨1, 1, 1⟩ : Hub), ⟨2, 1, 2⟩].length)
        (hj : j < [(⟨1, 1, 1⟩ : Hub), ⟨2, 1, 2⟩].length), i ≤ j →
       ([(⟨1, 1, 1⟩ : Hub), ⟨2, 1, 2⟩].get ⟨j, hj⟩).score ≤
         ([(⟨1, 1, 1⟩ : Hub), ⟨2, 1, 2⟩].get ⟨i, hi⟩).score)) :=
  ⟨⟨by decide, by decide, by decide, by decide⟩,
   extract_hubs_scored 10 [((1 : Int), (2 : Int), (1 : ℚ))]
     [((1 : Int), (⟨0, 0⟩ : CommEntry)), (2, ⟨0, 0⟩)] (fun _ _ => 1) 0 [1, 2]
     [⟨1, 1, 1⟩, ⟨2, 1, 2⟩] (by decide) (by decide) (by decide) (by decide)⟩

/-! ## `LeidenEngineHierarchical.py` (`LeidenEngineHierarchical`)

`__init__` stores `sorted(resolutions)`.  `cluster` builds the igraph graph
from the projection rows (vertex names in first-appearance order, the
`TupleList` semantics shared with `TopologyFilter`), initialises the per-node
path map by iterating `g.vs['name']` — which raises igraph's
`KeyError: Attribute does not exist` when the graph has no vertices, i.e.
when the projection has zero edges — and then, per sorted resolution, asks
the external Leiden partitioner (`la.find_partition`, abstracted as
`partitionFn`) for a membership and appends each node's community id to its
path while collecting the level's inverse grouping.  `save_results` derives
the two-level compat view `{macro: path[0], micro: path[-1]}`. -/

/-- One level of the community tree. -/
structure LevelData where
  resolution : ℚ
  communities : List (Int × List Int)
deriving DecidableEq, Repr

/-- The community tree. -/
structure CommunityTree where
  levels : List LevelData
deriving DecidableEq, Repr

/-- The failure `cluster` can raise: iterating `g.vs['name']` over a graph
with no vertices raises igraph's missing-attribute `KeyError`.  The
repository defines no `EmptyGraphError` (nor any other error class), so this
is the only constructor. -/
inductive ClusterError where
  | attributeKeyError
deriving DecidableEq, Repr

/-- `__init__`: `self.resolutions = sorted(resolutions)` (Python's stable
ascending sort). -/
def initResolutions (resolutions : List ℚ) : List ℚ :=
  resolutions.insertionSort (fun a b => a ≤ b)

/-- One `la.find_partition` pass collected into a level: the membership of
each vertex, grouped by community id in first-appearance order. -/
def buildLevel (partitionFn : List (Int × Int × ℚ) → ℚ → Int → Int)
    (tuples : List (Int × Int × ℚ)) (names : List Int) (res : ℚ) : LevelData :=
  { resolution := res
    communities :=
      names.foldl (fun acc v => addToGroup acc (partitionFn tuples res v) v) [] }

/-- `cluster`. -/
def cluster (resolutions : List ℚ)
    (partitionFn : List (Int × Int × ℚ) → ℚ → Int → Int)
    (tuples : List (Int × Int × ℚ)) :
    Except ClusterError (List (Int × List Int) × CommunityTree) :=
  let names := vertexNames tuples
  if names = [] then .error .attributeKeyError
  else
    let hmap0 := names.map (fun v => (v, ([] : List Int)))
    let result := resolutions.foldl
      (fun acc res =>
        (acc.1.map (fun vp => (vp.1, vp.2 ++ [partitionFn tuples res vp.1])),
         acc.2 ++ [buildLevel partitionFn tuples names res]))
      (hmap0, [])
    .ok (result.1, ⟨result.2⟩)

/-- The per-node compat entry of `save_results`
(`{macro: path[0], micro: path[-1]}`); `none` models the index error on an
empty path. -/
def compatEntry (path : List Int) : Option (Int × Int) :=
  match path.head?, path.getLast? with
  | some h, some l => some (h, l)
  | _, _ => none

theorem groupFold_mono {κ α : Type} [DecidableEq κ] (f : α → κ) (l : List α)
    (acc : List (κ × List α)) (k : κ) (g : List α)
    (h : alookup acc k = some g) :
    ∃ g', alookup (l.foldl (fun acc v => addToGroup acc (f v) v) acc) k = some g' ∧
      g ⊆ g' := by
  induction l generalizing acc g with
  | nil => exact ⟨g, h, List.Subset.refl g⟩
  | cons a rest ih =>
      rw [List.foldl_cons]
      by_cases hk : k = f a
      · have hstep : alookup (addToGroup acc (f a) a) k = some (g ++ [a]) := by
          rw [alookup_addToGroup, if_pos hk, ← hk, h]
          rfl
        obtain ⟨g', hg', hsub⟩ := ih _ _ hstep
        exact ⟨g', hg', fun x hx => hsub (List.mem_append_left _ hx)⟩
      · have hstep : alookup (addToGroup acc (f a) a) k = some g := by
          rw [alookup_addToGroup, if_neg hk]; exact h
        exact ih _ _ hstep

theorem mem_groupFold {κ α : Type} [DecidableEq κ] (f : α → κ) (l : List α)
    (acc : List (κ × List α)) (v : α) (hv : v ∈ l) :
    ∃ g, alookup (l.foldl (fun acc v => addToGroup acc (f v) v) acc) (f v) = some g ∧
      v ∈ g := by
  induction l generalizing acc with
  | nil => cases hv
  | cons a rest ih =>
      rw [List.foldl_cons]
      rcases List.mem_cons.mp hv with rfl | hv'
      · have hstep : alookup (addToGroup acc (f v) v) (f v) =
            some ((alookup acc (f v)).getD [] ++ [v]) := by
          rw [alookup_addToGroup, if_pos rfl]
        obtain ⟨g', hg', hsub⟩ := groupFold_mono f rest _ _ _ hstep
        exact ⟨g', hg', hsub (List.mem_append_right _ (List.mem_singleton_self v))⟩
      · exact ih _ hv'

theorem clusterFold_eq (partitionFn : List (Int × Int × ℚ) → ℚ → Int → Int)
    (tuples : List (Int × Int × ℚ)) (names : List Int) (rs : List ℚ)
    (hm : List (Int × List Int)) (ls : List LevelData) :
    rs.foldl
      (fun acc res =>
        (acc.1.map (fun vp => (vp.1, vp.2 ++ [partitionFn tuples res vp.1])),
         acc.2 ++ [buildLevel partitionFn tuples names res])) (hm, ls) =
      (hm.map (fun vp => (vp.1, vp.2 ++ rs.map (fun r => partitionFn tuples r vp.1))),
       ls ++ rs.map (buildLevel partitionFn tuples names)) := by
  induction rs generalizing hm ls with
  | nil => simp
  | cons r rest ih =>
      rw [List.foldl_cons, ih]
      simp [List.map_map, Function.comp_def, List.append_assoc]

/-- C6: the engine sorts the configured resolutions ascending before use
regardless of supply order (any permutation of the input yields the same
sorted list); on success every node's hierarchy path is exactly the sorted
resolutions mapped through the partitioner, so its length is the number of
resolutions and entry `i` is the node's community at level `i`; the tree has
one level per resolution, index-aligned (level `i` is built at sorted
resolution `i`, and every clustered node appears in level `i`'s inverse
grouping under its path entry); and the compat view assigns
`macro_community = path[0]` and `micro_community = path[-1]` for every
node. -/
theorem cluster_hierarchy_alignment (resolutions : List ℚ)
    (partitionFn : List (Int × Int × ℚ) → ℚ → Int → Int)
    (tuples : List (Int × Int × ℚ))
    (hmap : List (Int × List Int)) (tree : CommunityTree)
    (hok : cluster (initResolutions resolutions) partitionFn tuples =
      .ok (hmap, tree)) :
    (List.Sorted (fun a b : ℚ => a ≤ b) (initResolutions resolutions) ∧
     (initResolutions resolutions).Perm resolutions ∧
     (∀ rs', resolutions.Perm rs' →
        initResolutions resolutions = initResolutions rs')) ∧
    (∀ v p, (v, p) ∈ hmap →
       p = (initResolutions resolutions).map (fun r => partitionFn tuples r v) ∧
       p.length = resolutions.length ∧ v ∈ vertexNames tuples) ∧
    (tree.levels = (initResolutions resolutions).map
       (buildLevel partitionFn tuples (vertexNames tuples)) ∧
     tree.levels.length = resolutions.length) ∧
    (∀ lv ∈ tree.levels, ∀ v ∈ vertexNames tuples,
       ∃ g, alookup lv.communities (partitionFn tuples lv.resolution v) = some g ∧
         v ∈ g) ∧
    (resolutions ≠ [] → ∀ v p, (v, p) ∈ hmap →
       ∃ mac mic, p.head? = some mac ∧ p.getLast? = some mic ∧
         compatEntry p = some (mac, mic)) := by
  have hsorted : List.Sorted (fun a b : ℚ => a ≤ b) (initResolutions resolutions) :=
    List.sorted_insertionSort (fun a b => a ≤ b) resolutions
  have hperm : (initResolutions resolutions).Perm resolutions :=
    List.perm_insertionSort (fun a b => a ≤ b) resolutions
  have huniq : ∀ rs', resolutions.Perm rs' →
      initResolutions resolutions = initResolutions rs' := by
    intro rs' hp
    haveI : IsAntisymm ℚ (fun a b : ℚ => a ≤ b) := ⟨fun _ _ h h' => le_antisymm h h'⟩
    exact List.eq_of_perm_of_sorted
      (hperm.trans (hp.trans (List.perm_insertionSort (fun a b => a ≤ b) rs').symm))
      hsorted (List.sorted_insertionSort (fun a b => a ≤ b) rs')
  have hlen : (initResolutions resolutions).length = resolutions.length :=
    hperm.length_eq
  unfold cluster at hok
  by_cases hn : vertexNames tuples = []
  · rw [if_pos hn] at hok
    cases hok
  · rw [if_neg hn] at hok
    simp only [clusterFold_eq] at hok
    have hinj := hok
    simp only [Except.ok.injEq, Prod.mk.injEq] at hinj
    obtain ⟨hmap_eq, htree_eq⟩ := hinj
    have hmap_eq' : hmap = (vertexNames tuples).map
        (fun v => (v, (initResolutions resolutions).map (fun r => partitionFn tuples r v))) := by
      rw [← hmap_eq]
      simp [List.map_map, Function.comp_def]
    have hlevels : tree.levels = (initResolutions resolutions).map
        (buildLevel partitionFn tuples (vertexNames tuples)) := by
      rw [← htree_eq]
      simp
    refine ⟨⟨hsorted, hperm, huniq⟩, ?_, ⟨hlevels, by rw [hlevels, List.length_map, hlen]⟩,
      ?_, ?_⟩
    · intro v p hvp
      rw [hmap_eq'] at hvp
      obtain ⟨w, hw, hweq⟩ := List.mem_map.mp hvp
      have hv : w = v := congrArg Prod.fst hweq
      have hp : p = (initResolutions resolutions).map (fun r => partitionFn tuples r w) :=
        (congrArg Prod.snd hweq).symm
      subst hv
      exact ⟨hp, by rw [hp, List.length_map, hlen], hw⟩
    · intro lv hlv v hv
      rw [hlevels] at hlv
      obtain ⟨r, _, hreq⟩ := List.mem_map.mp hlv
      rw [← hreq]
      exact mem_groupFold (fun v => partitionFn tuples r v) (vertexNames tuples) [] v hv
    · intro hne v p hvp
      rw [hmap_eq'] at hvp
      obtain ⟨w, _, hweq⟩ := List.mem_map.mp hvp
      have hp : p = (initResolutions resolutions).map (fun r => partitionFn tuples r w) :=
        (congrArg Prod.snd hweq).symm
      have hpnil : p ≠ [] := by
        rw [hp]
        intro hcon
        have hinit : initResolutions resolutions = [] := List.map_eq_nil_iff.mp hcon
        exact hne ((hinit ▸ hperm : ([] : List ℚ).Perm resolutions)).symm.eq_nil
      obtain ⟨mac, hmac⟩ := Option.ne_none_iff_exists'.mp
        (fun hcon => hpnil (List.head?_eq_none_iff.mp hcon))
      obtain ⟨mic, hmic⟩ := Option.ne_none_iff_exists'.mp
        (fun hcon => hpnil (List.getLast?_eq_none_iff.mp hcon))
      refine ⟨mac, mic, hmac, hmic, ?_⟩
      unfold compatEntry
      rw [hmac, hmic]

/-- C6 witness: the alignment theorem on resolutions supplied as `[2, 1]`
(out of order), a one-edge projection and a constant external partitioner. -/
theorem cluster_hierarchy_alignment_witness :
    (cluster (initResolutions [2, 1]) (fun _ _ _ => (0 : Int))
        [((1 : Int), (2 : Int), (1 : ℚ))] =
      .ok ([(1, [0, 0]), (2, [0, 0])],
           ⟨[⟨1, [(0, [1, 2])]⟩, ⟨2, [(0, [1, 2])]⟩]⟩)) ∧
    ((List.Sorted (fun a b : ℚ => a ≤ b) (initResolutions [2, 1]) ∧
      (initResolutions [2, 1]).Perm [2, 1] ∧
      (∀ rs', ([(2 : ℚ), 1]).Perm rs' → initResolutions [2, 1] = initResolutions rs')) ∧
     (∀ v p, (v, p) ∈ [((1 : Int), [(0 : Int), 0]), ((2 : Int), [(0 : Int), 0])] →
        p = (initResolutions [2, 1]).map (fun r => (fun _ _ _ => (0 : Int))
              [((1 : Int), (2 : Int), (1 : ℚ))] r v) ∧
        p.length = [(2 : ℚ), 1].length ∧
        v ∈ vertexNames [((1 : Int), (2 : Int), (1 : ℚ))]) ∧
     ((CommunityTree.mk [⟨1, [(0, [1, 2])]⟩, ⟨2, [(0, [1, 2])]⟩]).levels =
        (initResolutions [2, 1]).map
          (buildLevel (fun _ _ _ => (0 : Int)) [((1 : Int), (2 : Int), (1 : ℚ))]
            (vertexNames [((1 : Int), (2 : Int), (1 : ℚ))])) ∧
      (CommunityTree.mk [⟨1, [(0, [1, 2])]⟩, ⟨2, [(0, [1, 2])]⟩]).levels.length =
        [(2 : ℚ), 1].length) ∧
     (∀ lv ∈ (CommunityTree.mk [⟨1, [(0, [1, 2])]⟩, ⟨2, [(0, [1, 2])]⟩]).levels,
        ∀ v ∈ vertexNames [((1 : Int), (2 : Int), (1 : ℚ))],
        ∃ g, alookup lv.communities
            ((fun _ _ _ => (0 : Int)) [((1 : Int), (2 : Int), (1 : ℚ))] lv.resolution v) =
          some g ∧ v ∈ g) ∧
     (([(2 : ℚ), 1]) ≠ [] →
      ∀ v p, (v, p) ∈ [((1 : Int), [(0 : Int), 0]), ((2 : Int), [(0 : Int), 0])] →
        ∃ mac mic, p.head? = some mac ∧ p.getLast? = some mic ∧
          compatEntry p = some (mac, mic))) :=
  ⟨by rfl,
   cluster_hierarchy_alignment [2, 1] (fun _ _ _ => (0 : Int))
     [((1 : Int), (2 : Int), (1 : ℚ))]
     [(1, [0, 0]), (2, [0, 0])]
     ⟨[⟨1, [(0, [1, 2])]⟩, ⟨2, [(0, [1, 2])]⟩]⟩ (by rfl)⟩

/-- C7 counterexample: on a projection with zero edges, `cluster` (with the
engine's default resolutions) fails with the graph library's
missing-vertex-attribute error — the only error this code can raise; the
repository defines no `EmptyGraphError` class at all, so the failure is not
an `EmptyGraphError`. -/
theorem cluster_empty_not_EmptyGraphError :
    cluster (initResolutions [1/100, 1/10, 1]) (fun _ _ _ => (0 : Int))
        ([] : List (Int × Int × ℚ)) =
      .error ClusterError.attributeKeyError := by rfl

/-- C7 amended: when the projection contains zero edges the constructed
graph has no vertices, and `cluster` fails before any invocation of the
external partitioner (the result does not depend on `partitionFn`) — but
with the graph library's missing-vertex-attribute `KeyError` rather than an
`EmptyGraphError`, which the repository never defines; the error propagates
to the caller. -/
theorem cluster_empty_fails (resolutions : List ℚ)
    (partitionFn : List (Int × Int × ℚ) → ℚ → Int → Int)
    (tuples : List (Int × Int × ℚ)) (h : tuples = []) :
    cluster resolutions partitionFn tuples = .error ClusterError.attributeKeyError := by
  subst h
  rfl

/-- C7 witness: the amended failure theorem at one concrete resolution list
and partitioner. -/
theorem cluster_empty_fails_witness :
    (([] : List (Int × Int × ℚ)) = []) ∧
    cluster [1] (fun _ _ _ => (0 : Int)) ([] : List (Int × Int × ℚ)) =
      .error ClusterError.attributeKeyError :=
  ⟨rfl, cluster_empty_fails [1] (fun _ _ _ => 0) [] rfl⟩

/-! ## `Projector.py` (`GraphProjector`)

`build_projection` first emits one structural edge (weight `alpha`) per input
causal link, then, for every index pair `i < j` over the node ordering,
computes `cosine_similarity(embeddings[i], embeddings[j])` and emits a
semantic edge of weight `sim * beta` when `sim >= threshold`.  Vectors are
modelled over `ℝ` (numpy floats), `np.linalg.norm` as `Real.sqrt` of the dot
square, and the numpy `IndexError` of an out-of-range `embeddings[i]` as
`none`. -/

/-- `np.dot` of two vectors. -/
def dot (vec_a vec_b : List ℝ) : ℝ := (List.zipWith (fun a b => a * b) vec_a vec_b).sum

/-- `np.linalg.norm` of a vector. -/
noncomputable def vnorm (v : List ℝ) : ℝ := Real.sqrt (dot v v)

/-- `cosine_similarity`: 0 for a zero-norm operand, else normalized dot. -/
noncomputable def cosine_similarity (vec_a vec_b : List ℝ) : ℝ :=
  if vnorm vec_a = 0 ∨ vnorm vec_b = 0 then 0
  else dot vec_a vec_b / (vnorm vec_a * vnorm vec_b)

/-- Edge type tag of the projection rows. -/
inductive EdgeType where
  | structural
  | semantic
deriving DecidableEq, Repr

/-- One projected edge `(source, target, weight, type)`. -/
structure PEdge where
  source : String
  target : String
  weight : ℝ
  etype : EdgeType

noncomputable instance : DecidableEq PEdge := fun _ _ => Classical.dec _

/-- The index pairs `(i, j)`, `i < j < n`, in the order of the nested
`for i in range(num_nodes): for j in range(i+1, num_nodes)` loops. -/
def indexPairs (n : Nat) : List (Nat × Nat) :=
  (List.range n).flatMap (fun i => (List.range' (i + 1) (n - (i + 1))).map (fun j => (i, j)))

/-- The semantic double loop in iteration order; `none` models the numpy
index error when `embeddings[i]` is out of range. -/
noncomputable def semFold (beta threshold : ℝ) (nodes : List String)
    (embeddings : List (List ℝ)) :
    List (Nat × Nat) → List PEdge → Option (List PEdge)
  | [], acc => some acc
  | (i, j) :: rest, acc =>
    match embeddings[i]?, embeddings[j]? with
    | some ei, some ej =>
      let sim := cosine_similarity ei ej
      if threshold ≤ sim then
        semFold beta threshold nodes embeddings rest
          (acc ++ [⟨nodes.getD i "", nodes.getD j "", sim * beta, .semantic⟩])
      else semFold beta threshold nodes embeddings rest acc
    | _, _ => none

/-- `build_projection`: structural edges first, then the semantic loop
appending into the same list. -/
noncomputable def build_projection (alpha beta threshold : ℝ) (nodes : List String)
    (edges : List (String × String)) (embeddings : List (List ℝ)) :
    Option (List PEdge) :=
  semFold beta threshold nodes embeddings (indexPairs nodes.length)
    (edges.map (fun e => ⟨e.1, e.2, alpha, .structural⟩))

/-- What the semantic loop contributes for one in-range index pair. -/
noncomputable def semEdgeOf (beta threshold : ℝ) (nodes : List String)
    (embeddings : List (List ℝ)) (p : Nat × Nat) : Option PEdge :=
  let sim := cosine_similarity (embeddings.getD p.1 []) (embeddings.getD p.2 [])
  if threshold ≤ sim then
    some ⟨nodes.getD p.1 "", nodes.getD p.2 "", sim * beta, .semantic⟩
  else none

theorem getElem?_eq_some_getD {α : Type} (l : List α) (i : Nat) (d : α)
    (h : i < l.length) : l[i]? = some (l.getD i d) := by
  rw [List.getElem?_eq_getElem h, List.getD_eq_getElem?_getD,
    List.getElem?_eq_getElem h]
  rfl

theorem semFold_eq (beta threshold : ℝ) (nodes : List String)
    (embeddings : List (List ℝ)) (ps : List (Nat × Nat)) (acc : List PEdge)
    (hin : ∀ p ∈ ps, p.1 < embeddings.length ∧ p.2 < embeddings.length) :
    semFold beta threshold nodes embeddings ps acc =
      some (acc ++ ps.filterMap (semEdgeOf beta threshold nodes embeddings)) := by
  induction ps generalizing acc with
  | nil => simp [semFold]
  | cons p rest ih =>
      obtain ⟨i, j⟩ := p
      obtain ⟨h1, h2⟩ := hin (i, j) (List.mem_cons_self _ _)
      have he1 : embeddings[i]? = some (embeddings.getD i []) :=
        getElem?_eq_some_getD embeddings i [] h1
      have he2 : embeddings[j]? = some (embeddings.getD j []) :=
        getElem?_eq_some_getD embeddings j [] h2
      have hrest : ∀ q ∈ rest, q.1 < embeddings.length ∧ q.2 < embeddings.length :=
        fun q hq => hin q (List.mem_cons_of_mem _ hq)
      rw [semFold, he1, he2]
      simp only []
      by_cases ht : threshold ≤
          cosine_similarity (embeddings.getD i []) (embeddings.getD j [])
      · rw [if_pos ht, ih _ hrest, List.filterMap_cons]
        have : semEdgeOf beta threshold nodes embeddings (i, j) =
            some ⟨nodes.getD i "", nodes.getD j "",
              cosine_similarity (embeddings.getD i []) (embeddings.getD j []) * beta,
              .semantic⟩ := by
          unfold semEdgeOf
          rw [if_pos ht]
        rw [this]
        simp
      · rw [if_neg ht, ih _ hrest, List.filterMap_cons]
        have : semEdgeOf beta threshold nodes embeddings (i, j) = none := by
          unfold semEdgeOf
          rw [if_neg ht]
        rw [this]

theorem mem_indexPairs (n : Nat) (i j : Nat) :
    (i, j) ∈ indexPairs n ↔ i < j ∧ j < n := by
  unfold indexPairs
  rw [List.mem_flatMap]
  constructor
  · rintro ⟨a, ha, hmem⟩
    simp only [List.mem_map, Prod.mk.injEq] at hmem
    obtain ⟨b, hb, h1, h2⟩ := hmem
    subst h1; subst h2
    rw [List.mem_range] at ha
    rw [List.mem_range'_1] at hb
    omega
  · rintro ⟨hij, hjn⟩
    refine ⟨i, by rw [List.mem_range]; omega, ?_⟩
    simp only [List.mem_map, Prod.mk.injEq]
    refine ⟨j, by rw [List.mem_range'_1]; omega, ?_⟩
    simp

theorem nodup_indexPairs (n : Nat) : (indexPairs n).Nodup := by
  unfold indexPairs
  rw [List.nodup_flatMap]
  constructor
  · intro i _
    exact ((List.nodup_range' _ _).map
      (fun a b hab => congrArg Prod.snd hab))
  · have hlt := List.pairwise_lt_range n
    apply hlt.imp
    intro a b hab x hxa hxb
    simp only [List.mem_map, Prod.mk.injEq] at hxa hxb
    obtain ⟨_, _, h1, _⟩ := hxa
    obtain ⟨_, _, h3, _⟩ := hxb
    omega

theorem count_filterMap_eq_countP (f : (Nat × Nat) → Option PEdge)
    (l : List (Nat × Nat)) (e : PEdge) :
    (l.filterMap f).count e = l.countP (fun q => f q = some e) := by
  induction l with
  | nil => rfl
  | cons q rest ih =>
      rw [List.filterMap_cons, List.countP_cons]
      cases hq : f q with
      | none => simp [hq, ih]
      | some e' =>
          rw [List.count_cons, ih]
          by_cases he : e' = e
          · subst he
            simp [hq]
          · simp [hq, he]

theorem countP_eq_one_unique {α : Type} (l : List α) (p : α → Bool) (a : α)
    (hnd : l.Nodup) (ha : a ∈ l) (hiff : ∀ x ∈ l, p x = true ↔ x = a) :
    l.countP p = 1 := by
  induction l with
  | nil => cases ha
  | cons x rest ih =>
      rw [List.countP_cons]
      rcases List.mem_cons.mp ha with hax | ha'
      · have hx : p x = true := (hiff x (List.mem_cons_self _ _)).mpr hax.symm
        have hrest : rest.countP p = 0 := by
          rw [List.countP_eq_zero]
          intro y hy hpy
          have hya : y = a := (hiff y (List.mem_cons_of_mem _ hy)).mp hpy
          have hmem : a ∈ rest := hya ▸ hy
          rw [hax] at hmem
          exact (List.nodup_cons.mp hnd).1 hmem
        rw [hrest, if_pos hx]
      · have hx : ¬ p x = true := by
          intro hpx
          have hxa : x = a := (hiff x (List.mem_cons_self _ _)).mp hpx
          exact (List.nodup_cons.mp hnd).1 (hxa ▸ ha')
        rw [ih (List.nodup_cons.mp hnd).2 ha'
          (fun y hy => hiff y (List.mem_cons_of_mem _ hy)), if_neg hx]

theorem nodes_getD_inj (nodes : List String) (hnd : nodes.Nodup) (a b : Nat)
    (ha : a < nodes.length) (hb : b < nodes.length)
    (h : nodes.getD a "" = nodes.getD b "") : a = b := by
  rw [List.getD_eq_getElem?_getD, List.getElem?_eq_getElem ha,
      List.getD_eq_getElem?_getD, List.getElem?_eq_getElem hb] at h
  simp only [Option.getD_some] at h
  exact (List.Nodup.getElem_inj_iff hnd).mp h

theorem semEdgeOf_eq_some (beta threshold : ℝ) (nodes : List String)
    (embeddings : List (List ℝ)) (q : Nat × Nat) (e : PEdge)
    (h : semEdgeOf beta threshold nodes embeddings q = some e) :
    threshold ≤ cosine_similarity (embeddings.getD q.1 []) (embeddings.getD q.2 []) ∧
    e = ⟨nodes.getD q.1 "", nodes.getD q.2 "",
      cosine_similarity (embeddings.getD q.1 []) (embeddings.getD q.2 []) * beta,
      .semantic⟩ := by
  unfold semEdgeOf at h
  by_cases ht : threshold ≤
      cosine_similarity (embeddings.getD q.1 []) (embeddings.getD q.2 [])
  · rw [if_pos ht] at h
    exact ⟨ht, (Option.some.inj h).symm⟩
  · rw [if_neg ht] at h
    simp at h

/-- C5: on well-shaped input, `build_projection` returns the structural
edges followed by exactly the filtered semantic pairs; for every index pair
`i < j` the semantic edge `(nodes[i], nodes[j])` with weight
`similarity * beta` occurs exactly once iff the cosine similarity meets the
threshold; no reversed duplicate of a semantic pair is ever emitted; and the
cosine similarity against a zero-norm vector is 0, so such a pair passes the
threshold only when `threshold ≤ 0`. -/
theorem build_projection_semantic_pairs (alpha beta threshold : ℝ)
    (nodes : List String) (edges : List (String × String))
    (embeddings : List (List ℝ)) (i j : Nat)
    (hlen : nodes.length ≤ embeddings.length) (hnd : nodes.Nodup)
    (hij : i < j) (hjn : j < nodes.length) :
    (build_projection alpha beta threshold nodes edges embeddings =
       some ((edges.map (fun e => PEdge.mk e.1 e.2 alpha EdgeType.structural)) ++
         (indexPairs nodes.length).filterMap
           (semEdgeOf beta threshold nodes embeddings))) ∧
    ((i, j) ∈ indexPairs nodes.length) ∧
    (((edges.map (fun e => PEdge.mk e.1 e.2 alpha EdgeType.structural)) ++
        (indexPairs nodes.length).filterMap
          (semEdgeOf beta threshold nodes embeddings)).count
        (PEdge.mk (nodes.getD i "") (nodes.getD j "")
          (cosine_similarity (embeddings.getD i []) (embeddings.getD j []) * beta)
          EdgeType.semantic) =
      if threshold ≤ cosine_similarity (embeddings.getD i []) (embeddings.getD j [])
      then 1 else 0) ∧
    (∀ a b w w', (PEdge.mk a b w EdgeType.semantic) ∈
        (indexPairs nodes.length).filterMap (semEdgeOf beta threshold nodes embeddings) →
      (PEdge.mk b a w' EdgeType.semantic) ∈
        (indexPairs nodes.length).filterMap (semEdgeOf beta threshold nodes embeddings) →
      False) ∧
    (∀ v w, vnorm v = 0 →
      cosine_similarity v w = 0 ∧ cosine_similarity w v = 0 ∧
      (threshold ≤ cosine_similarity v w ↔ threshold ≤ 0)) := by
  have hin : ∀ p ∈ indexPairs nodes.length,
      p.1 < embeddings.length ∧ p.2 < embeddings.length := by
    intro p hp
    obtain ⟨a, b⟩ := p
    have := (mem_indexPairs nodes.length a b).mp hp
    exact ⟨by omega, by omega⟩
  have hmemij : (i, j) ∈ indexPairs nodes.length :=
    (mem_indexPairs nodes.length i j).mpr ⟨hij, hjn⟩
  refine ⟨?_, hmemij, ?_, ?_, ?_⟩
  · unfold build_projection
    rw [semFold_eq beta threshold nodes embeddings _ _ hin]
  · rw [List.count_append, count_filterMap_eq_countP]
    have hstruct : (edges.map
        (fun e => PEdge.mk e.1 e.2 alpha EdgeType.structural)).count
        (PEdge.mk (nodes.getD i "") (nodes.getD j "")
          (cosine_similarity (embeddings.getD i []) (embeddings.getD j []) * beta)
          EdgeType.semantic) = 0 := by
      rw [List.count_eq_zero]
      intro hmem
      obtain ⟨ed, _, heq⟩ := List.mem_map.mp hmem
      exact EdgeType.noConfusion (congrArg PEdge.etype heq)
    rw [hstruct, Nat.zero_add]
    by_cases ht : threshold ≤
        cosine_similarity (embeddings.getD i []) (embeddings.getD j [])
    · rw [if_pos ht]
      apply countP_eq_one_unique _ _ (i, j) (nodup_indexPairs nodes.length) hmemij
      intro q hq
      obtain ⟨a, b⟩ := q
      obtain ⟨hab, hbn⟩ := (mem_indexPairs nodes.length a b).mp hq
      constructor
      · intro hp
        have hsome := of_decide_eq_true hp
        obtain ⟨_, hedge⟩ := semEdgeOf_eq_some beta threshold nodes embeddings (a, b) _ hsome
        have hsrc : nodes.getD a "" = nodes.getD i "" :=
          (congrArg PEdge.source hedge).symm
        have htgt : nodes.getD b "" = nodes.getD j "" :=
          (congrArg PEdge.target hedge).symm
        have ha : a = i := nodes_getD_inj nodes hnd a i (by omega) (by omega) hsrc
        have hb : b = j := nodes_getD_inj nodes hnd b j hbn hjn htgt
        rw [ha, hb]
      · intro hq'
        apply decide_eq_true
        have h1 : a = i := congrArg Prod.fst hq'
        have h2 : b = j := congrArg Prod.snd hq'
        subst h1; subst h2
        unfold semEdgeOf
        rw [if_pos ht]
    · rw [if_neg ht]
      rw [List.countP_eq_zero]
      intro q hq hp
      obtain ⟨a, b⟩ := q
      obtain ⟨hab, hbn⟩ := (mem_indexPairs nodes.length a b).mp hq
      have hsome := of_decide_eq_true hp
      obtain ⟨hτ, hedge⟩ := semEdgeOf_eq_some beta threshold nodes embeddings (a, b) _ hsome
      have hsrc : nodes.getD a "" = nodes.getD i "" :=
        (congrArg PEdge.source hedge).symm
      have htgt : nodes.getD b "" = nodes.getD j "" :=
        (congrArg PEdge.target hedge).symm
      have ha : a = i := nodes_getD_inj nodes hnd a i (by omega) (by omega) hsrc
      have hb : b = j := nodes_getD_inj nodes hnd b j hbn hjn htgt
      subst ha; subst hb
      exact ht hτ
  · intro a b w w' hab hba
    obtain ⟨q, hq, hqsome⟩ := List.mem_filterMap.mp hab
    obtain ⟨q', hq', hq'some⟩ := List.mem_filterMap.mp hba
    obtain ⟨qa, qb⟩ := q
    obtain ⟨qa', qb'⟩ := q'
    obtain ⟨h1, h2⟩ := (mem_indexPairs nodes.length qa qb).mp hq
    obtain ⟨h3, h4⟩ := (mem_indexPairs nodes.length qa' qb').mp hq'
    obtain ⟨_, hedge⟩ := semEdgeOf_eq_some beta threshold nodes embeddings _ _ hqsome
    obtain ⟨_, hedge'⟩ := semEdgeOf_eq_some beta threshold nodes embeddings _ _ hq'some
    have e1 : a = nodes.getD qa "" := congrArg PEdge.source hedge
    have e2 : b = nodes.getD qb "" := congrArg PEdge.target hedge
    have e3 : b = nodes.getD qa' "" := congrArg PEdge.source hedge'
    have e4 : a = nodes.getD qb' "" := congrArg PEdge.target hedge'
    have hq1 : qa = qb' := nodes_getD_inj nodes hnd qa qb' (by omega) (by omega)
      (by rw [← e1, e4])
    have hq2 : qb = qa' := nodes_getD_inj nodes hnd qb qa' (by omega) (by omega)
      (by rw [← e2, e3])
    omega
  · intro v w hv
    have h1 : cosine_similarity v w = 0 := by
      unfold cosine_similarity
      rw [if_pos (Or.inl hv)]
    have h2 : cosine_similarity w v = 0 := by
      unfold cosine_similarity
      rw [if_pos (Or.inr hv)]
    exact ⟨h1, h2, by rw [h1]⟩

/-- C5 witness: the pair theorem at two nodes with zero vectors,
`threshold = 1`. -/
theorem build_projection_semantic_pairs_witness :
    (["a", "b"].length ≤ [[(0 : ℝ)], [0]].length ∧ ["a", "b"].Nodup ∧
     0 < 1 ∧ 1 < ["a", "b"].length) ∧
    ((build_projection 1 1 1 ["a", "b"] [] [[(0 : ℝ)], [0]] =
       some ((([] : List (String × String)).map
           (fun e => PEdge.mk e.1 e.2 1 EdgeType.structural)) ++
         (indexPairs ["a", "b"].length).filterMap
           (semEdgeOf 1 1 ["a", "b"] [[(0 : ℝ)], [0]]))) ∧
     ((0, 1) ∈ indexPairs ["a", "b"].length) ∧
     (((([] : List (String × String)).map
          (fun e => PEdge.mk e.1 e.2 1 EdgeType.structural)) ++
        (indexPairs ["a", "b"].length).filterMap
          (semEdgeOf 1 1 ["a", "b"] [[(0 : ℝ)], [0]])).count
        (PEdge.mk (["a", "b"].getD 0 "") (["a", "b"].getD 1 "")
          (cosine_similarity ([[(0 : ℝ)], [0]].getD 0 [])
            ([[(0 : ℝ)], [0]].getD 1 []) * 1)
          EdgeType.semantic) =
      if (1 : ℝ) ≤ cosine_similarity ([[(0 : ℝ)], [0]].getD 0 [])
          ([[(0 : ℝ)], [0]].getD 1 [])
      then 1 else 0) ∧
     (∀ a b w w', (PEdge.mk a b w EdgeType.semantic) ∈
        (indexPairs ["a", "b"].length).filterMap
          (semEdgeOf 1 1 ["a", "b"] [[(0 : ℝ)], [0]]) →
      (PEdge.mk b a w' EdgeType.semantic) ∈
        (indexPairs ["a", "b"].length).filterMap
          (semEdgeOf 1 1 ["a", "b"] [[(0 : ℝ)], [0]]) →
      False) ∧
     (∀ v w, vnorm v = 0 →
      cosine_similarity v w = 0 ∧ cosine_similarity w v = 0 ∧
      ((1 : ℝ) ≤ cosine_similarity v w ↔ (1 : ℝ) ≤ 0))) :=
  ⟨⟨by decide, by decide, by decide, by decide⟩,
   build_projection_semantic_pairs 1 1 1 ["a", "b"] [] [[(0 : ℝ)], [0]] 0 1
     (by decide) (by decide) (by decide) (by decide)⟩

/-- C8 counterexample: `build_projection` performs no shape validation — with
1 node but 3 embedding vectors (lengths differ) it returns a projection
(`some []`) instead of failing with an `InputShapeError` (which the
repository never defines). -/
theorem build_projection_no_InputShapeError :
    build_projection 1 1 1 ["101"] [] [[(0 : ℝ)], [0], [0]] = some [] ∧
    [[(0 : ℝ)], [0], [0]].length ≠ ["101"].length := by
  constructor
  · rfl
  · decide

theorem getD_take {α : Type} (l : List α) (n i : Nat) (d : α) (h : i < n) :
    (l.take n).getD i d = l.getD i d := by
  rw [List.getD_eq_getElem?_getD, List.getD_eq_getElem?_getD, List.getElem?_take]
  rw [if_pos h]

/-- C8 amended: `build_projection` never validates the embeddings length (no
`InputShapeError` exists in the repository): whenever `embeddings` holds at
least as many vectors as there are nodes — equal or strictly longer — it
returns a projection, identical to the one computed from just the first
`len(nodes)` vectors (the surplus is ignored). -/
theorem build_projection_ignores_extra_embeddings (alpha beta threshold : ℝ)
    (nodes : List String) (edges : List (String × String))
    (embeddings : List (List ℝ))
    (hlen : nodes.length ≤ embeddings.length) :
    (∃ es, build_projection alpha beta threshold nodes edges embeddings = some es) ∧
    build_projection alpha beta threshold nodes edges embeddings =
      build_projection alpha beta threshold nodes edges
        (embeddings.take nodes.length) := by
  have hin : ∀ p ∈ indexPairs nodes.length,
      p.1 < embeddings.length ∧ p.2 < embeddings.length := by
    intro p hp
    obtain ⟨a, b⟩ := p
    have := (mem_indexPairs nodes.length a b).mp hp
    exact ⟨by omega, by omega⟩
  have hin' : ∀ p ∈ indexPairs nodes.length,
      p.1 < (embeddings.take nodes.length).length ∧
      p.2 < (embeddings.take nodes.length).length := by
    intro p hp
    obtain ⟨a, b⟩ := p
    have := (mem_indexPairs nodes.length a b).mp hp
    rw [List.length_take]
    omega
  have heq1 : build_projection alpha beta threshold nodes edges embeddings =
      some ((edges.map (fun e => PEdge.mk e.1 e.2 alpha EdgeType.structural)) ++
        (indexPairs nodes.length).filterMap
          (semEdgeOf beta threshold nodes embeddings)) := by
    unfold build_projection
    rw [semFold_eq beta threshold nodes embeddings _ _ hin]
  have heq2 : build_projection alpha beta threshold nodes edges
      (embeddings.take nodes.length) =
      some ((edges.map (fun e => PEdge.mk e.1 e.2 alpha EdgeType.structural)) ++
        (indexPairs nodes.length).filterMap
          (semEdgeOf beta threshold nodes (embeddings.take nodes.length))) := by
    unfold build_projection
    rw [semFold_eq beta threshold nodes (embeddings.take nodes.length) _ _ hin']
  refine ⟨⟨_, heq1⟩, ?_⟩
  rw [heq1, heq2]
  have hcongr : ∀ p ∈ indexPairs nodes.length,
      semEdgeOf beta threshold nodes embeddings p =
      semEdgeOf beta threshold nodes (embeddings.take nodes.length) p := by
    intro p hp
    obtain ⟨a, b⟩ := p
    have hab := (mem_indexPairs nodes.length a b).mp hp
    unfold semEdgeOf
    rw [getD_take embeddings nodes.length a [] (by omega),
        getD_take embeddings nodes.length b [] (by omega)]
  rw [List.filterMap_congr hcongr]

/-- C8 witness: the amended theorem with one node and two embedding
vectors. -/
theorem build_projection_ignores_extra_embeddings_witness :
    (["101"].length ≤ [[(0 : ℝ)], [0]].length) ∧
    ((∃ es, build_projection 1 1 1 ["101"] [] [[(0 : ℝ)], [0]] = some es) ∧
     build_projection 1 1 1 ["101"] [] [[(0 : ℝ)], [0]] =
       build_projection 1 1 1 ["101"] [] ([[(0 : ℝ)], [0]].take ["101"].length)) :=
  ⟨by decide,
   build_projection_ignores_extra_embeddings 1 1 1 ["101"] [] [[(0 : ℝ)], [0]]
     (by decide)⟩

end NetRCA
